import Mathlib

/-!
Shallow embedding of the `arithmetic_compression_wizard` Rust library.

Conventions used throughout:
* Machine integers are modelled as `Nat`.  A Rust `as u32` cast is `% 2 ^ 32`;
  u8 accumulation is `% 256`.  Wrapping `u64` subtraction of `1` is modelled by
  adding `2 ^ 64 - 1` before the `% 2 ^ 32` of the subsequent cast (for values
  below `2 ^ 64` this agrees with two's-complement wraparound).
* Rust `Vec<u8>` buffers are `List Nat` whose elements are below 256 on every
  run considered here; dictionary words (`String`) are their UTF-8 byte lists.
* The contents of a `std::collections::HashMap` are modelled as an association
  list in first-insertion order; because the map's iteration order is
  unspecified (and in practice randomized per map), every function that
  iterates a map takes the iteration sequence as an explicit parameter, and
  theorems quantify over all permutations of the canonical association list.
* Loops whose bound is not syntactically evident carry explicit fuel; the fuel
  chosen is shown sufficient for every state reached in the theorems below.
-/

set_option maxRecDepth 10000

/-! ### bit_wizardry/bit_manipulation_spells.rs -/

/-- `ARITHMETIC_PRECISION_LIMIT`: maximal 24-bit interval bound, `(1 << 24) - 1`. -/
def ARITHMETIC_PRECISION_LIMIT : Nat := 2 ^ 24 - 1

/-- `FIRST_QTR = (ARITHMETIC_PRECISION_LIMIT / 4) + 1`. -/
def FIRST_QTR : Nat := ARITHMETIC_PRECISION_LIMIT / 4 + 1

/-- `HALF = 2 * FIRST_QTR`. -/
def HALF : Nat := 2 * FIRST_QTR

/-- `THIRD_QTR = 3 * FIRST_QTR`. -/
def THIRD_QTR : Nat := 3 * FIRST_QTR

/-- State of `BitMagicWriter`: output byte buffer, u8 bit accumulator,
number of bits accumulated in the current byte, and the deferred-bit counter. -/
structure BitMagicWriter where
  mystical_output_scroll : List Nat
  bit_accumulation_cauldron : Nat
  bits_brewing_count : Nat
  pending_mystical_bits : Nat
  deriving Repr, DecidableEq

/-- `BitMagicWriter::conjure_new` with an empty output buffer. -/
def conjure_new : BitMagicWriter := ⟨[], 0, 0, 0⟩

/-- `BitMagicWriter::write_bit`: shift the bit into the u8 accumulator and
flush a full byte to the output buffer. -/
def write_bit (w : BitMagicWriter) (bit : Nat) : BitMagicWriter :=
  let acc := (w.bit_accumulation_cauldron * 2 + bit % 2) % 256
  let cnt := w.bits_brewing_count + 1
  if cnt = 8 then
    { w with mystical_output_scroll := w.mystical_output_scroll ++ [acc],
             bit_accumulation_cauldron := 0, bits_brewing_count := 0 }
  else
    { w with bit_accumulation_cauldron := acc, bits_brewing_count := cnt }

/-- `k` repetitions of `write_bit` with the same bit (the
`for _ in 0..pending` loop body of `output_bit`). -/
def write_bit_rep (bit : Nat) : Nat → BitMagicWriter → BitMagicWriter
  | 0, w => w
  | k + 1, w => write_bit_rep bit k (write_bit w bit)

/-- `BitMagicWriter::output_bit`: write the bit, then write the opposite bit
once per pending bit and clear the pending counter. -/
def output_bit (w : BitMagicWriter) (bit : Nat) : BitMagicWriter :=
  let w1 := write_bit w bit
  let w2 := write_bit_rep (1 - bit) w1.pending_mystical_bits w1
  { w2 with pending_mystical_bits := 0 }

/-- `k` repetitions of `output_bit` with the same bit (the
`for _ in 0..pending` loop body of `bit_plus_follow`). -/
def output_bit_rep (bit : Nat) : Nat → BitMagicWriter → BitMagicWriter
  | 0, w => w
  | k + 1, w => output_bit_rep bit k (output_bit w bit)

/-- `BitMagicWriter::bit_plus_follow`: `output_bit`, then `output_bit (1-bit)`
once per pending bit remaining (none remain, since `output_bit` cleared the
counter), then clear the pending counter. -/
def bit_plus_follow (w : BitMagicWriter) (bit : Nat) : BitMagicWriter :=
  let w1 := output_bit w bit
  let w2 := output_bit_rep (1 - bit) w1.pending_mystical_bits w1
  { w2 with pending_mystical_bits := 0 }

/-- `BitMagicWriter::complete_compression_ritual`: force one extra deferred
bit, flush via `bit_plus_follow(1)`, zero-pad the last partial byte, and
return the finished output buffer. -/
def complete_compression_ritual (w : BitMagicWriter) : List Nat :=
  let w1 := { w with pending_mystical_bits := w.pending_mystical_bits + 1 }
  let w2 := if 0 < w1.pending_mystical_bits then bit_plus_follow w1 1 else w1
  if 0 < w2.bits_brewing_count then
    w2.mystical_output_scroll ++
      [w2.bit_accumulation_cauldron * 2 ^ (8 - w2.bits_brewing_count) % 256]
  else
    w2.mystical_output_scroll

/-- The interval-narrowing formula shared verbatim by
`BitMagicWriter::encode_mystical_symbol` and
`BitMagicReader::update_mystical_intervals`:
`range = high - low + 1`, `high' = low + range*end/total - 1`,
`low' = low + range*start/total`, computed in u64 and cast back `as u32`.
Returns `(low', high')`. -/
def narrow_interval_bounds (low high s e t : Nat) : Nat × Nat :=
  let range := high - low + 1
  ((low + range * s / t) % 2 ^ 32,
   (low + range * e / t + (2 ^ 64 - 1)) % 2 ^ 32)

/-- One iteration of the encoder renormalization loop of
`BitMagicWriter::normalize`; `none` means the loop exits. -/
def enc_norm_step (w : BitMagicWriter) (low high : Nat) :
    Option (BitMagicWriter × Nat × Nat) :=
  if high < HALF then
    some (bit_plus_follow w 0, 2 * low % 2 ^ 32, (2 * high + 1) % 2 ^ 32)
  else if HALF ≤ low then
    some (bit_plus_follow w 1,
          2 * (low - HALF) % 2 ^ 32, (2 * (high - HALF) + 1) % 2 ^ 32)
  else if FIRST_QTR ≤ low ∧ high < THIRD_QTR then
    some ({ w with pending_mystical_bits := w.pending_mystical_bits + 1 },
          2 * (low - FIRST_QTR) % 2 ^ 32, (2 * (high - FIRST_QTR) + 1) % 2 ^ 32)
  else
    none

/-- The encoder renormalization loop, with fuel.  Every narrowing reached in
the theorems below exits within the fuel (`NORM_FUEL`), because each iteration
doubles the interval width and the loop exits once the width leaves `HALF`. -/
def enc_normalize : Nat → BitMagicWriter → Nat → Nat → BitMagicWriter × Nat × Nat
  | 0, w, low, high => (w, low, high)
  | fuel + 1, w, low, high =>
    match enc_norm_step w low high with
    | none => (w, low, high)
    | some (w2, l2, h2) => enc_normalize fuel w2 l2 h2

/-- Fuel for the renormalization loops. -/
def NORM_FUEL : Nat := 64

/-- `BitMagicWriter::encode_mystical_symbol`: narrow the interval to the
symbol's cumulative range, then renormalize.  Returns the updated writer and
the new `(low, high)` pair. -/
def encode_mystical_symbol (w : BitMagicWriter) (low high s e t : Nat) :
    BitMagicWriter × Nat × Nat :=
  let b := narrow_interval_bounds low high s e t
  enc_normalize NORM_FUEL w b.1 b.2

/-- State of `BitMagicReader`: input bytes, byte/bit cursor and the 24-bit
code window (`interval_position_tracker`). -/
structure BitMagicReader where
  compressed_mystical_scroll : List Nat
  byte_pos : Nat
  bit_pos : Nat
  interval_position_tracker : Nat
  deriving Repr, DecidableEq

/-- `BitMagicReader::read_bit`: MSB-first within each byte; reads past the end
of the buffer yield bit 0. -/
def read_bit (r : BitMagicReader) : Nat × BitMagicReader :=
  if r.compressed_mystical_scroll.length ≤ r.byte_pos then (0, r)
  else
    let bit := r.compressed_mystical_scroll.getD r.byte_pos 0 / 2 ^ (7 - r.bit_pos) % 2
    let bp := r.bit_pos + 1
    if bp = 8 then (bit, { r with bit_pos := 0, byte_pos := r.byte_pos + 1 })
    else (bit, { r with bit_pos := bp })

/-- Shift one freshly read bit into the code window (u32 arithmetic). -/
def track_one_bit (r : BitMagicReader) : BitMagicReader :=
  let (b, r2) := read_bit r
  { r2 with interval_position_tracker :=
      (2 * r2.interval_position_tracker + b) % 2 ^ 32 }

/-- `k` iterations of the window-priming loop of `conjure_from_scroll`. -/
def track_bits : Nat → BitMagicReader → BitMagicReader
  | 0, r => r
  | k + 1, r => track_bits k (track_one_bit r)

/-- `BitMagicReader::conjure_from_scroll`: prime the 24-bit code window. -/
def conjure_from_scroll (bytes : List Nat) : BitMagicReader :=
  track_bits 24 ⟨bytes, 0, 0, 0⟩

/-- `BitMagicReader::decode_mystical_target`:
`((window - low + 1) * total - 1) / range` in u64.  The subtractions are
modelled on `Nat`; they agree with Rust whenever `low ≤ window` and the
product is positive, which holds on every run considered below. -/
def decode_mystical_target (r : BitMagicReader) (t low high : Nat) : Nat :=
  let range := high - low + 1
  ((r.interval_position_tracker - low + 1) * t - 1) / range

/-- Common tail of each iteration of `BitMagicReader::normalize`: scale
`(low, high)` and shift one new input bit into the code window. -/
def dec_scale (r : BitMagicReader) (low high : Nat) :
    BitMagicReader × Nat × Nat :=
  (track_one_bit r, 2 * low % 2 ^ 32, (2 * high + 1) % 2 ^ 32)

/-- One iteration of the decoder renormalization loop of
`BitMagicReader::normalize`; `none` means the loop exits.  The u32 window
subtractions agree with Rust whenever `low ≤ window`, which holds on every
run considered below. -/
def dec_norm_step (r : BitMagicReader) (low high : Nat) :
    Option (BitMagicReader × Nat × Nat) :=
  if high < HALF then
    some (dec_scale r low high)
  else if HALF ≤ low then
    some (dec_scale
      { r with interval_position_tracker := r.interval_position_tracker - HALF }
      (low - HALF) (high - HALF))
  else if FIRST_QTR ≤ low ∧ high < THIRD_QTR then
    some (dec_scale
      { r with interval_position_tracker := r.interval_position_tracker - FIRST_QTR }
      (low - FIRST_QTR) (high - FIRST_QTR))
  else
    none

/-- The decoder renormalization loop, with fuel (see `enc_normalize`). -/
def dec_normalize : Nat → BitMagicReader → Nat → Nat → BitMagicReader × Nat × Nat
  | 0, r, low, high => (r, low, high)
  | fuel + 1, r, low, high =>
    match dec_norm_step r low high with
    | none => (r, low, high)
    | some (r2, l2, h2) => dec_normalize fuel r2 l2 h2

/-- `BitMagicReader::update_mystical_intervals`: narrow, then renormalize. -/
def update_mystical_intervals (r : BitMagicReader) (low high s e t : Nat) :
    BitMagicReader × Nat × Nat :=
  let b := narrow_interval_bounds low high s e t
  dec_normalize NORM_FUEL r b.1 b.2

/-! ### compression_engine/compression_conjurer.rs -/

/-- `u8::is_ascii_alphabetic` (also used for `char` arguments, which the
source only ever applies to ASCII ranges). -/
def is_ascii_alphabetic (b : Nat) : Bool :=
  decide ((65 ≤ b ∧ b ≤ 90) ∨ (97 ≤ b ∧ b ≤ 122))

/-- `CompressionArtifact`: frequency table entries `(symbol, count,
cumulative_start)`, total symbol count, compressed bytes, and the word
dictionary (each word as its UTF-8 byte list). -/
structure CompressionArtifact where
  mystical_frequency_codex : List (Nat × Nat × Nat)
  total_frequency_essence : Nat
  compressed_bit_stream : List Nat
  mystical_word_grimoire : List (List Nat)
  deriving Repr, DecidableEq

/-- The `valid_word_start` condition of `transform_manuscript_to_symbols`:
position 0 (`prev = none`), or the previous byte is not a letter. -/
def valid_word_start (prev : Option Nat) : Bool :=
  match prev with
  | none => true
  | some p => !is_ascii_alphabetic p

/-- The inner dictionary loop of `transform_manuscript_to_symbols`, searching
the word list in order from index `i`.  `s` is the suffix of the manuscript
starting at the current position and `prev` the byte just before it (`none` at
position 0), so the source conditions become: the word fits and matches
byte-for-byte (`s.take w.length = w`), the previous byte is absent or not a
letter, and the byte after the word is absent or not a letter. -/
def find_word_match_from (s : List Nat) (prev : Option Nat) :
    Nat → List (List Nat) → Option (Nat × List Nat)
  | _, [] => none
  | i, w :: ws =>
    if w.length ≤ s.length ∧ s.take w.length = w ∧
        valid_word_start prev = true ∧
        (s.length ≤ w.length ∨ is_ascii_alphabetic (s.getD w.length 0) = false)
    then some (i, w)
    else find_word_match_from s prev (i + 1) ws

/-- The scanning loop of `transform_manuscript_to_symbols`, recursing on the
remaining suffix with the preceding byte carried in `prev`.  The fuel counts
loop iterations; each iteration consumes at least one byte whenever every
dictionary word is non-empty, so fuel equal to the manuscript length
suffices (an empty dictionary word would make the source loop forever). -/
def transform_from (dict : List (List Nat)) :
    Nat → Option Nat → List Nat → List Nat
  | 0, _, _ => []
  | _ + 1, _, [] => []
  | fuel + 1, prev, b :: rest =>
    if is_ascii_alphabetic b = true ∨ b = 39 then
      match find_word_match_from (b :: rest) prev 0 dict with
      | some (i, w) =>
        (256 + i) ::
          transform_from dict fuel
            (if w.length = 0 then prev else some (w.getLastD 0))
            ((b :: rest).drop w.length)
      | none => b :: transform_from dict fuel (some b) rest
    else b :: transform_from dict fuel (some b) rest

/-- `transform_manuscript_to_symbols`: bytes to symbols, where `0..=255` is a
raw byte and `256 + i` references dictionary word `i`. -/
def transform_manuscript_to_symbols (x : List Nat) (dict : List (List Nat)) :
    List Nat :=
  transform_from dict x.length none x

/-- `reconstruct_original_manuscript` (decompression_sage.rs): a symbol
`0..=255` is a literal byte; `256 + i` copies dictionary word `i`; an
out-of-range reference contributes nothing. -/
def reconstruct_original_manuscript :
    List Nat → List (List Nat) → List Nat
  | [], _ => []
  | s :: rest, dict =>
    if s ≤ 255 then s :: reconstruct_original_manuscript rest dict
    else
      match dict[s - 256]? with
      | some w => w ++ reconstruct_original_manuscript rest dict
      | none => reconstruct_original_manuscript rest dict

/-- `*map.entry(key).or_insert(0) += 1` on an association list keyed by
symbol id (the `HashMap` contents in first-insertion order). -/
def bump_count : List (Nat × Nat) → Nat → List (Nat × Nat)
  | [], s => [(s, 1)]
  | (k, v) :: t, s =>
    if k = s then (k, v + 1) :: t else (k, v) :: bump_count t s

/-- Contents of the `symbol_frequency_map` built by
`analyze_symbolic_frequencies`, in first-insertion order.  The map's
iteration order is unspecified, so consumers take the iteration sequence as a
parameter constrained to be a permutation of this list. -/
def count_occurrences (l : List Nat) : List (Nat × Nat) :=
  l.foldl bump_count []

/-- `FrequencyAnalysisWisdom`: the cumulative table and the total mass. -/
structure FrequencyAnalysisWisdom where
  frequency_entries : List (Nat × Nat × Nat)
  total_frequency_mass : Nat
  deriving Repr, DecidableEq

/-- The cumulative-offset pass of `analyze_symbolic_frequencies`. -/
def cumulative_entries : List (Nat × Nat) → Nat → List (Nat × Nat × Nat)
  | [], _ => []
  | (s, c) :: t, acc => (s, c, acc) :: cumulative_entries t (acc + c)

/-- `analyze_symbolic_frequencies`, applied to the iteration sequence of the
frequency map (see `count_occurrences`): sort ascending by symbol id
(`sort_by_key`, stable), total the counts, and attach cumulative offsets. -/
def analyze_symbolic_frequencies (pairs : List (Nat × Nat)) :
    FrequencyAnalysisWisdom :=
  let sorted := pairs.mergeSort fun a b => decide (a.1 ≤ b.1)
  { frequency_entries := cumulative_entries sorted 0,
    total_frequency_mass := (sorted.map fun p => p.2).sum }

/-- `*almanac.entry(word).or_insert(0) += 1` on an association list keyed by
word bytes. -/
def bump_word : List (List Nat × Nat) → List Nat → List (List Nat × Nat)
  | [], w => [(w, 1)]
  | (k, v) :: t, w =>
    if k = w then (k, v + 1) :: t else (k, v) :: bump_word t w

/-- Flush the word buffer of `discover_profitable_word_enchantments`: words
shorter than 3 bytes are discarded. -/
def word_flush (counts : List (List Nat × Nat)) (buffer : List Nat) :
    List (List Nat × Nat) :=
  if 3 ≤ buffer.length then bump_word counts buffer else counts

/-- One character step of the tokenizer of
`discover_profitable_word_enchantments`: letters and apostrophes extend the
current word buffer, anything else flushes it. -/
def word_scan_step (st : List (List Nat × Nat) × List Nat) (ch : Nat) :
    List (List Nat × Nat) × List Nat :=
  if is_ascii_alphabetic ch = true ∨ ch = 39 then (st.1, st.2 ++ [ch])
  else (word_flush st.1 st.2, [])

/-- Contents of the `word_frequency_almanac` map over the character sequence
of the manuscript, in first-insertion order (final buffer flushed). -/
def word_frequency_almanac (chars : List Nat) : List (List Nat × Nat) :=
  word_flush (chars.foldl word_scan_step ([], [])).1
    (chars.foldl word_scan_step ([], [])).2

/-- Modelled from std: continuation-byte test of the UTF-8 decoder. -/
def is_utf8_cont (b : Nat) : Bool := decide (128 ≤ b ∧ b ≤ 191)

/-- Modelled from std: admissible second byte of a 3- or 4-byte UTF-8
sequence, which depends on the lead byte (surrogate and overlong ranges are
excluded). -/
def utf8_second_ok (lead c : Nat) : Bool :=
  if lead = 224 then decide (160 ≤ c ∧ c ≤ 191)
  else if lead = 237 then decide (128 ≤ c ∧ c ≤ 159)
  else if lead = 240 then decide (144 ≤ c ∧ c ≤ 191)
  else if lead = 244 then decide (128 ≤ c ∧ c ≤ 143)
  else is_utf8_cont c

/-- Modelled from std: `String::from_utf8_lossy` as a sequence of scalar
values, with the replacement character `U+FFFD = 65533` substituted for each
maximal invalid subpart.  The fuel counts consumed bytes (each step consumes
at least one byte), so fuel equal to the input length suffices.  ASCII bytes
decode to themselves, which is the only fact the theorems below rely on. -/
def utf8_lossy_scalars : Nat → List Nat → List Nat
  | 0, _ => []
  | _ + 1, [] => []
  | fuel + 1, b :: rest =>
    if b < 128 then b :: utf8_lossy_scalars fuel rest
    else if 194 ≤ b ∧ b ≤ 223 then
      match rest with
      | c :: r2 =>
        if is_utf8_cont c then
          ((b - 192) * 64 + (c - 128)) :: utf8_lossy_scalars fuel r2
        else 65533 :: utf8_lossy_scalars fuel rest
      | [] => [65533]
    else if 224 ≤ b ∧ b ≤ 239 then
      match rest with
      | c :: d :: r3 =>
        if utf8_second_ok b c then
          if is_utf8_cont d then
            ((b - 224) * 4096 + (c - 128) * 64 + (d - 128)) ::
              utf8_lossy_scalars fuel r3
          else 65533 :: utf8_lossy_scalars fuel (d :: r3)
        else 65533 :: utf8_lossy_scalars fuel rest
      | [c] => if utf8_second_ok b c then [65533] else 65533 :: utf8_lossy_scalars fuel rest
      | [] => [65533]
    else if 240 ≤ b ∧ b ≤ 244 then
      match rest with
      | c :: d :: e :: r4 =>
        if utf8_second_ok b c then
          if is_utf8_cont d then
            if is_utf8_cont e then
              ((b - 240) * 262144 + (c - 128) * 4096 + (d - 128) * 64 + (e - 128)) ::
                utf8_lossy_scalars fuel r4
            else 65533 :: utf8_lossy_scalars fuel (e :: r4)
          else 65533 :: utf8_lossy_scalars fuel (d :: (e :: r4))
        else 65533 :: utf8_lossy_scalars fuel rest
      | [c, d] =>
        if utf8_second_ok b c then
          if is_utf8_cont d then [65533] else 65533 :: utf8_lossy_scalars fuel (d :: [])
        else 65533 :: utf8_lossy_scalars fuel rest
      | [c] => if utf8_second_ok b c then [65533] else 65533 :: utf8_lossy_scalars fuel rest
      | [] => [65533]
    else 65533 :: utf8_lossy_scalars fuel rest

/-- Modelled from std: UTF-8 encoding of one scalar value. -/
def scalar_utf8_bytes (cp : Nat) : List Nat :=
  if cp < 128 then [cp]
  else if cp < 2048 then [192 + cp / 64, 128 + cp % 64]
  else if cp < 65536 then [224 + cp / 4096, 128 + cp / 64 % 64, 128 + cp % 64]
  else [240 + cp / 262144, 128 + cp / 4096 % 64, 128 + cp / 64 % 64, 128 + cp % 64]

/-- Modelled from std: `String::from_utf8_lossy`, as the UTF-8 bytes of the
decoded scalar sequence. -/
def from_utf8_lossy (bytes : List Nat) : List Nat :=
  ((utf8_lossy_scalars bytes.length bytes).map scalar_utf8_bytes).flatten

/-- `discover_profitable_word_enchantments`, applied to the manuscript and the
iteration sequence of its word-frequency map (a permutation of
`word_frequency_almanac (utf8_lossy_scalars ..)` of the manuscript; see
`count_occurrences` for the convention).  Inputs under 1000 bytes skip
discovery (the released, non-test build).  Candidates need frequency above 3
and positive savings `len*freq - (len+4)`; they are ranked by savings
descending with Rust's stable `sort_by_key`, and the top 25 are kept. -/
def profit_candidates (word_order : List (List Nat × Nat)) :
    List (List Nat × Nat × Int) :=
  word_order.filterMap fun p =>
    let savings : Int := (p.1.length : Int) * (p.2 : Int) - ((p.1.length : Int) + 4)
    if 3 < p.2 ∧ 0 < savings then some (p.1, p.2, savings) else none

/-- The selection and ranking tail of
`discover_profitable_word_enchantments` (see `profit_candidates` for the
filter). -/
def discover_profitable_word_enchantments
    (x : List Nat) (word_order : List (List Nat × Nat)) : List (List Nat) :=
  if x.length < 1000 then []
  else
    let ranked := (profit_candidates word_order).mergeSort
      fun a b => decide (b.2.2 ≤ a.2.2)
    (ranked.take 25).map fun c => c.1

/-- The per-symbol encoding loop of `weave_compression_spell`: look the symbol
up in the table by id and feed its cumulative range (cast `as u32`) to
`encode_mystical_symbol`; symbols absent from the table are skipped. -/
def encode_all_symbols :
    List Nat → List (Nat × Nat × Nat) → Nat →
    BitMagicWriter × Nat × Nat → BitMagicWriter × Nat × Nat
  | [], _, _, st => st
  | s :: rest, entries, total, (w, low, high) =>
    match entries.find? fun e => e.1 == s with
    | some (_, freq, cum) =>
      encode_all_symbols rest entries total
        (encode_mystical_symbol w low high (cum % 2 ^ 32)
          ((cum + freq) % 2 ^ 32) (total % 2 ^ 32))
    | none => encode_all_symbols rest entries total (w, low, high)

/-- `weave_compression_spell`: discovery, substitution, frequency analysis,
then arithmetic coding from the interval `(0, ARITHMETIC_PRECISION_LIMIT)`.
`word_order` and `freq_order` are the iteration sequences of the two hash
maps (see `count_occurrences`). -/
def weave_compression_spell (x : List Nat)
    (word_order : List (List Nat × Nat)) (freq_order : List (Nat × Nat)) :
    CompressionArtifact :=
  let grimoire := discover_profitable_word_enchantments x word_order
  let syms := transform_manuscript_to_symbols x grimoire
  let analysis := analyze_symbolic_frequencies freq_order
  let final := encode_all_symbols syms analysis.frequency_entries
    analysis.total_frequency_mass (conjure_new, 0, ARITHMETIC_PRECISION_LIMIT)
  { mystical_frequency_codex := analysis.frequency_entries,
    total_frequency_essence := analysis.total_frequency_mass,
    compressed_bit_stream := complete_compression_ritual final.1,
    mystical_word_grimoire := grimoire }

/-! ### decompression_oracle/decompression_sage.rs -/

/-- The decode-side table lookup of `unweave_compression_spell`: linear
`find` for the first entry whose cumulative range (cast `as u32`) contains
the target position. -/
def find_symbol_for_target (entries : List (Nat × Nat × Nat)) (target : Nat) :
    Option (Nat × Nat × Nat) :=
  entries.find? fun e =>
    decide (e.2.2 % 2 ^ 32 ≤ target ∧ target < (e.2.2 + e.2.1) % 2 ^ 32)

/-- Number of table entries the linear `find` of `find_symbol_for_target`
examines before returning (the whole table when no entry contains the
target). -/
def find_symbol_for_target_steps : List (Nat × Nat × Nat) → Nat → Nat
  | [], _ => 0
  | e :: t, target =>
    if e.2.2 % 2 ^ 32 ≤ target ∧ target < (e.2.2 + e.2.1) % 2 ^ 32 then 1
    else 1 + find_symbol_for_target_steps t target

/-- One iteration of the decode loop of `unweave_compression_spell`: compute
the target, resolve a symbol (falling back to the first table entry, or 0,
when no range contains the target), and update the intervals when the
resolved symbol is found by id. -/
def decode_one_symbol (entries : List (Nat × Nat × Nat)) (total : Nat)
    (st : BitMagicReader × Nat × Nat) : (BitMagicReader × Nat × Nat) × Nat :=
  let target := decode_mystical_target st.1 (total % 2 ^ 32) st.2.1 st.2.2
  let discovered :=
    match find_symbol_for_target entries target with
    | some e => e.1
    | none => match entries.head? with
      | some e => e.1
      | none => 0
  let st2 :=
    match entries.find? fun e => e.1 == discovered with
    | some (_, freq, cum) =>
      update_mystical_intervals st.1 st.2.1 st.2.2 (cum % 2 ^ 32)
        ((cum + freq) % 2 ^ 32) (total % 2 ^ 32)
    | none => st
  (st2, discovered)

/-- The decode loop, run exactly `total_frequency_essence` times. -/
def decode_symbols (entries : List (Nat × Nat × Nat)) (total : Nat) :
    Nat → BitMagicReader × Nat × Nat → List Nat
  | 0, _ => []
  | k + 1, st =>
    let step := decode_one_symbol entries total st
    step.2 :: decode_symbols entries total k step.1

/-- `unweave_compression_spell`: prime the reader, decode exactly
`total_frequency_essence` symbols, then expand dictionary references. -/
def unweave_compression_spell (a : CompressionArtifact) : List Nat :=
  let syms := decode_symbols a.mystical_frequency_codex a.total_frequency_essence
    a.total_frequency_essence
    (conjure_from_scroll a.compressed_bit_stream, 0, ARITHMETIC_PRECISION_LIMIT)
  reconstruct_original_manuscript syms a.mystical_word_grimoire

/-! ### lib.rs (simple_api): artifact serialization -/

/-- `u32::to_le_bytes` of a value cast `as u32`. -/
def u32_le_bytes (n : Nat) : List Nat :=
  [n % 256, n / 256 % 256, n / 65536 % 256, n / 16777216 % 256]

/-- `u64::to_le_bytes` of a value below `2 ^ 64`. -/
def u64_le_bytes (n : Nat) : List Nat :=
  [n % 256, n / 256 % 256, n / 65536 % 256, n / 16777216 % 256,
   n / 2 ^ 32 % 256, n / 2 ^ 40 % 256, n / 2 ^ 48 % 256, n / 2 ^ 56 % 256]

/-- The serialization half of `simple_api::compress_data`: dictionary (word
count, then per-word length and raw bytes), frequency table (entry count,
then per-entry symbol id / count / cumulative start), total mass, bitstream
(length and raw bytes); all integers little-endian fixed-width. -/
def serialize_artifact (a : CompressionArtifact) : List Nat :=
  u32_le_bytes a.mystical_word_grimoire.length ++
    (a.mystical_word_grimoire.map fun w => u32_le_bytes w.length ++ w).flatten ++
    u32_le_bytes a.mystical_frequency_codex.length ++
    (a.mystical_frequency_codex.map fun e =>
      u32_le_bytes e.1 ++ u64_le_bytes e.2.1 ++ u64_le_bytes e.2.2).flatten ++
    u64_le_bytes a.total_frequency_essence ++
    u32_le_bytes a.compressed_bit_stream.length ++
    a.compressed_bit_stream

/-- The `read_u32` closure of `simple_api::decompress_data`; `none` models the
abort on a read past the buffer end. -/
def read_u32 : List Nat → Option (Nat × List Nat)
  | b0 :: b1 :: b2 :: b3 :: rest =>
    some (b0 + 256 * b1 + 65536 * b2 + 16777216 * b3, rest)
  | _ => none

/-- The `read_u64` closure of `simple_api::decompress_data`. -/
def read_u64 : List Nat → Option (Nat × List Nat)
  | b0 :: b1 :: b2 :: b3 :: b4 :: b5 :: b6 :: b7 :: rest =>
    some (b0 + 256 * b1 + 65536 * b2 + 16777216 * b3 + 2 ^ 32 * b4 +
      2 ^ 40 * b5 + 2 ^ 48 * b6 + 2 ^ 56 * b7, rest)
  | _ => none

/-- The dictionary-reading loop of `simple_api::decompress_data`; each word is
passed through `String::from_utf8_lossy`. -/
def read_words : Nat → List Nat → Option (List (List Nat) × List Nat)
  | 0, bytes => some ([], bytes)
  | k + 1, bytes => do
    let (len, r1) ← read_u32 bytes
    if len ≤ r1.length then do
      let (ws, r2) ← read_words k (r1.drop len)
      some (from_utf8_lossy (r1.take len) :: ws, r2)
    else none

/-- The frequency-table-reading loop of `simple_api::decompress_data`. -/
def read_entries : Nat → List Nat → Option (List (Nat × Nat × Nat) × List Nat)
  | 0, bytes => some ([], bytes)
  | k + 1, bytes => do
    let (s, r1) ← read_u32 bytes
    let (freq, r2) ← read_u64 r1
    let (cum, r3) ← read_u64 r2
    let (es, r4) ← read_entries k r3
    some ((s, freq, cum) :: es, r4)

/-- The parsing half of `simple_api::decompress_data`: rebuild the artifact
from the linear buffer (trailing bytes are ignored, as in the source). -/
def deserialize_artifact (bytes : List Nat) : Option CompressionArtifact := do
  let (wc, r1) ← read_u32 bytes
  let (ws, r2) ← read_words wc r1
  let (fc, r3) ← read_u32 r2
  let (es, r4) ← read_entries fc r3
  let (total, r5) ← read_u64 r4
  let (sl, r6) ← read_u32 r5
  if sl ≤ r6.length then
    some ⟨es, total, r6.take sl, ws⟩
  else none

/-! ### Claim C2: out-of-range dictionary references -/

/-- C2 counterexample: decoding an artifact whose single decoded symbol is the
dictionary reference 300 with an empty dictionary returns normally with empty
output — the out-of-range reference is silently dropped, and no failure of any
kind is raised (`unweave_compression_spell` returns plain bytes; the source has
no error path, and its own comment says invalid references are ignored). -/
theorem C2_counterexample :
    unweave_compression_spell ⟨[(300, 1, 0)], 1, [128], []⟩ = [] := by
  rfl

/-- C2 as amended: an out-of-range dictionary reference (symbol `256 + k` with
`k` at least the dictionary length) is silently skipped by
`reconstruct_original_manuscript`: decoding returns normally and the reference
contributes no bytes to the output. -/
theorem C2_silent_skip (pre post : List Nat) (dict : List (List Nat)) (k : Nat)
    (h : dict.length ≤ k) :
    reconstruct_original_manuscript (pre ++ (256 + k) :: post) dict =
      reconstruct_original_manuscript pre dict ++
        reconstruct_original_manuscript post dict := by
  induction pre with
  | nil =>
    have hnone : dict[k]? = none := by
      rw [List.getElem?_eq_none_iff]
      exact h
    simp only [List.nil_append, reconstruct_original_manuscript]
    rw [if_neg (by omega)]
    simp [hnone]
  | cons s pre ih =>
    by_cases hs : s ≤ 255
    · simp [reconstruct_original_manuscript, hs, ih]
    · cases hg : dict[s - 256]? with
      | none => simp [reconstruct_original_manuscript, hs, hg, ih]
      | some w => simp [reconstruct_original_manuscript, hs, hg, ih]

/-- C2 witness: the amended statement applied at a concrete input. -/
theorem C2_witness :
    (List.length ([] : List (List Nat)) ≤ 0) ∧
      reconstruct_original_manuscript [65, 256, 66] [] =
        reconstruct_original_manuscript [65] [] ++
          reconstruct_original_manuscript [66] [] :=
  ⟨by decide, C2_silent_skip [65] [66] [] 0 (by decide)⟩

/-! ### Claim C8: whole-word boundary substitution -/

/-- C8: a dictionary match is accepted only when the word matches
byte-for-byte and is bounded by non-letters (or the string edges) on both
sides (first conjunct, about the match acceptance test of
`transform_manuscript_to_symbols`); in particular, in
`"theme the theory the"` with dictionary `["the"]` only the two standalone
`"the"` tokens become symbol 256 while the prefixes inside `"theme"` and
`"theory"` are emitted as raw bytes (second conjunct). -/
theorem C8_boundary_substitution :
    (∀ (s : List Nat) (prev : Option Nat) (i : Nat) (dict : List (List Nat))
        (j : Nat) (w : List Nat),
        find_word_match_from s prev i dict = some (j, w) →
        s.take w.length = w ∧ valid_word_start prev = true ∧
          (s.length ≤ w.length ∨ is_ascii_alphabetic (s.getD w.length 0) = false)) ∧
      transform_manuscript_to_symbols
          [116, 104, 101, 109, 101, 32, 116, 104, 101, 32,
           116, 104, 101, 111, 114, 121, 32, 116, 104, 101]
          [[116, 104, 101]] =
        [116, 104, 101, 109, 101, 32, 256, 32,
         116, 104, 101, 111, 114, 121, 32, 256] := by
  constructor
  · intro s prev i dict
    induction dict generalizing i with
    | nil => intro j w h; simp [find_word_match_from] at h
    | cons v vs ih =>
      intro j w h
      rw [find_word_match_from] at h
      split at h
      · rename_i hc
        cases h
        exact ⟨hc.2.1, hc.2.2.1, hc.2.2.2⟩
      · exact ih (i + 1) j w h
  · decide

/-- C8 witness: the boundary conditions instantiated at a concrete successful
match (the first standalone `"the "` position, preceded by a space). -/
theorem C8_witness :
    find_word_match_from [116, 104, 101, 32] (some 32) 0 [[116, 104, 101]] =
        some (0, [116, 104, 101]) ∧
      ([116, 104, 101, 32].take 3 = [116, 104, 101] ∧
        valid_word_start (some 32) = true ∧
        ([116, 104, 101, 32].length ≤ 3 ∨
          is_ascii_alphabetic ([116, 104, 101, 32].getD 3 0) = false)) :=
  ⟨by decide,
    C8_boundary_substitution.1 [116, 104, 101, 32] (some 32) 0 [[116, 104, 101]]
      0 [116, 104, 101] (by decide)⟩

/-! ### Claim C9: decode-side symbol lookup cost -/

/-- C9 counterexample: on a 16-entry table of unit-frequency symbols, the
decode-side lookup for the target in the last cumulative range examines all
16 entries — the source resolves symbols with a linear first-match `find`
(with a silent fall-back to the first entry), not a bounds-checked binary
search, whose probe count on 16 entries is at most `log2 16 + 1 = 5 < 16`. -/
theorem C9_counterexample :
    find_symbol_for_target_steps ((List.range 16).map fun i => (i, 1, i)) 15 = 16 ∧
      5 < 16 := by
  constructor
  · decide
  · decide

/-- C9 as amended: the lookup is a linear scan; whenever no entry before the
last one contains the target, every entry of the table is examined, so the
worst-case cost equals the table length and grows linearly with the alphabet
size. -/
theorem C9_linear_scan (entries : List (Nat × Nat × Nat)) (target : Nat)
    (h : ∀ e ∈ entries.dropLast,
      ¬(e.2.2 % 2 ^ 32 ≤ target ∧ target < (e.2.2 + e.2.1) % 2 ^ 32)) :
    find_symbol_for_target_steps entries target = entries.length := by
  induction entries with
  | nil => rfl
  | cons e t ih =>
    cases t with
    | nil =>
      rw [find_symbol_for_target_steps]
      split <;> simp [find_symbol_for_target_steps]
    | cons e2 t2 =>
      have he : e ∈ (e :: e2 :: t2).dropLast := by
        simp [List.dropLast]
      have hne := h e he
      have hd : (e :: e2 :: t2).dropLast = e :: (e2 :: t2).dropLast := rfl
      rw [find_symbol_for_target_steps, if_neg hne, ih]
      · simp; omega
      · intro x hx
        exact h x (by rw [hd]; exact List.mem_cons_of_mem e hx)

/-- C9 witness: the amended statement at a concrete three-entry table with
the target in the final range. -/
theorem C9_witness :
    (∀ e ∈ [((0 : Nat), (1 : Nat), (0 : Nat)), (1, 1, 1), (2, 1, 2)].dropLast,
        ¬(e.2.2 % 2 ^ 32 ≤ 2 ∧ 2 < (e.2.2 + e.2.1) % 2 ^ 32)) ∧
      find_symbol_for_target_steps [(0, 1, 0), (1, 1, 1), (2, 1, 2)] 2 = 3 :=
  ⟨by decide, C9_linear_scan [(0, 1, 0), (1, 1, 1), (2, 1, 2)] 2 (by decide)⟩

/-! ### Claim C5: the interval invariant -/

theorem PRECISION_LIMIT_eq : ARITHMETIC_PRECISION_LIMIT = 16777215 := by decide

theorem FIRST_QTR_eq : FIRST_QTR = 4194304 := by decide

theorem HALF_eq : HALF = 8388608 := by decide

theorem THIRD_QTR_eq : THIRD_QTR = 12582912 := by decide

/-- `a/t + b/t ≤ (a+b)/t`. -/
theorem add_div_le_div_add (a b t : Nat) (ht : 0 < t) :
    a / t + b / t ≤ (a + b) / t := by
  rw [Nat.le_div_iff_mul_le ht, Nat.add_mul]
  exact Nat.add_le_add (Nat.div_mul_le_self a t) (Nat.div_mul_le_self b t)

/-- Preservation of the interval invariant by the narrowing formula, when the
symbol's cumulative range is genuine (`s < e ≤ t`) and the total fits the
current range (`t ≤ high - low + 1`, which encoding guarantees whenever the
total mass stays within the renormalization bound). -/
theorem narrow_preserves_invariant (low high s e t : Nat)
    (hlh : low ≤ high) (hhL : high ≤ ARITHMETIC_PRECISION_LIMIT)
    (hse : s < e) (het : e ≤ t) (ht : t ≤ high - low + 1) :
    (narrow_interval_bounds low high s e t).1 ≤
        (narrow_interval_bounds low high s e t).2 ∧
      (narrow_interval_bounds low high s e t).2 ≤ ARITHMETIC_PRECISION_LIMIT := by
  have ht0 : 0 < t := by omega
  set range := high - low + 1 with hrange
  have hqe_le : range * e / t ≤ range := by
    calc range * e / t ≤ range * t / t :=
          Nat.div_le_div_right (Nat.mul_le_mul_left range het)
    _ = range := Nat.mul_div_cancel range ht0
  have hdiv1 : 1 ≤ range / t := (Nat.one_le_div_iff ht0).mpr ht
  have hadd : range * s / t + range / t ≤ (range * s + range) / t :=
    add_div_le_div_add (range * s) range t ht0
  have hmono : (range * s + range) / t ≤ range * e / t := by
    apply Nat.div_le_div_right
    calc range * s + range = range * (s + 1) := by ring
    _ ≤ range * e := Nat.mul_le_mul_left range (by omega)
  have hq : range * s / t + 1 ≤ range * e / t := by omega
  have hLnum : ARITHMETIC_PRECISION_LIMIT = 16777215 := PRECISION_LIMIT_eq
  set A := range * s / t with hA
  set B := range * e / t with hB
  have h1 : (low + A) % 2 ^ 32 = low + A := by
    apply Nat.mod_eq_of_lt
    have h32 : (2 : Nat) ^ 32 = 4294967296 := by norm_num
    omega
  have hsplit : low + B + (2 ^ 64 - 1) = (low + B - 1) + 2 ^ 32 * 2 ^ 32 := by
    have h64 : (2 : Nat) ^ 64 = 2 ^ 32 * 2 ^ 32 := by norm_num
    omega
  have h2 : (low + B + (2 ^ 64 - 1)) % 2 ^ 32 = low + B - 1 := by
    rw [hsplit, Nat.add_mul_mod_self_left]
    apply Nat.mod_eq_of_lt
    have h32 : (2 : Nat) ^ 32 = 4294967296 := by norm_num
    omega
  have hgoal1 : (narrow_interval_bounds low high s e t).1 = low + A := by
    simp only [narrow_interval_bounds, ← hrange, ← hA, ← hB]
    exact h1
  have hgoal2 : (narrow_interval_bounds low high s e t).2 = low + B - 1 := by
    simp only [narrow_interval_bounds, ← hrange, ← hA, ← hB]
    exact h2
  rw [hgoal1, hgoal2]
  omega

/-- Each encoder renormalization iteration preserves
`low ≤ high ≤ ARITHMETIC_PRECISION_LIMIT`. -/
theorem enc_norm_step_preserves_invariant (w w2 : BitMagicWriter)
    (low high l2 h2 : Nat) (hlh : low ≤ high)
    (hhL : high ≤ ARITHMETIC_PRECISION_LIMIT)
    (hstep : enc_norm_step w low high = some (w2, l2, h2)) :
    l2 ≤ h2 ∧ h2 ≤ ARITHMETIC_PRECISION_LIMIT := by
  have h32 : (2 : Nat) ^ 32 = 4294967296 := by norm_num
  rw [enc_norm_step] at hstep
  rw [PRECISION_LIMIT_eq] at hhL ⊢
  split at hstep
  · rename_i hc
    rw [HALF_eq] at hc
    cases hstep
    omega
  · split at hstep
    · rename_i hc1 hc2
      rw [HALF_eq] at hc1 hc2
      simp only [Option.some.injEq, Prod.mk.injEq] at hstep
      obtain ⟨hw, hl, hh⟩ := hstep
      rw [HALF_eq] at hl hh
      subst hl hh
      omega
    · split at hstep
      · rename_i hc1 hc2 hc3
        rw [HALF_eq] at hc1 hc2
        rw [FIRST_QTR_eq, THIRD_QTR_eq] at hc3
        simp only [Option.some.injEq, Prod.mk.injEq] at hstep
        obtain ⟨hw, hl, hh⟩ := hstep
        rw [FIRST_QTR_eq] at hl hh
        subst hl hh
        omega
      · cases hstep

/-- Each decoder renormalization iteration preserves
`low ≤ high ≤ ARITHMETIC_PRECISION_LIMIT`. -/
theorem dec_norm_step_preserves_invariant (r r2 : BitMagicReader)
    (low high l2 h2 : Nat) (hlh : low ≤ high)
    (hhL : high ≤ ARITHMETIC_PRECISION_LIMIT)
    (hstep : dec_norm_step r low high = some (r2, l2, h2)) :
    l2 ≤ h2 ∧ h2 ≤ ARITHMETIC_PRECISION_LIMIT := by
  have h32 : (2 : Nat) ^ 32 = 4294967296 := by norm_num
  rw [dec_norm_step] at hstep
  rw [PRECISION_LIMIT_eq] at hhL ⊢
  split at hstep
  · rename_i hc
    rw [HALF_eq] at hc
    rw [dec_scale] at hstep
    simp only [Option.some.injEq, Prod.mk.injEq] at hstep
    obtain ⟨hw, hl, hh⟩ := hstep
    subst hl hh
    omega
  · split at hstep
    · rename_i hc1 hc2
      rw [HALF_eq] at hc1 hc2
      rw [dec_scale] at hstep
      simp only [Option.some.injEq, Prod.mk.injEq] at hstep
      obtain ⟨hw, hl, hh⟩ := hstep
      rw [HALF_eq] at hl hh
      subst hl hh
      omega
    · split at hstep
      · rename_i hc1 hc2 hc3
        rw [HALF_eq] at hc1 hc2
        rw [FIRST_QTR_eq, THIRD_QTR_eq] at hc3
        rw [dec_scale] at hstep
        simp only [Option.some.injEq, Prod.mk.injEq] at hstep
        obtain ⟨hw, hl, hh⟩ := hstep
        rw [FIRST_QTR_eq] at hl hh
        subst hl hh
        omega
      · cases hstep

/-- C5 counterexample: decoding the artifact
`{codex := [(0, 33554432, 0)], total := 1, stream := [], dict := []}` is a
decode call in which, after the very first per-symbol interval narrowing (the
resolved entry has `cum_end = 33554432 > total = 1`), the interval state is
`low = 0`, `high = 4294967295 > ARITHMETIC_PRECISION_LIMIT` — the u64 value
`2^49 - 1` truncated by the `as u32` cast.  The first conjunct shows the
narrowing formula producing the value at exactly the arguments of that call;
the second shows the decode loop's state after its first iteration. -/
theorem C5_counterexample :
    (narrow_interval_bounds 0 ARITHMETIC_PRECISION_LIMIT 0 33554432 1).2 =
        4294967295 ∧
      (decode_one_symbol [(0, 33554432, 0)] 1
          (conjure_from_scroll [], 0, ARITHMETIC_PRECISION_LIMIT)).1.2.2 =
        4294967295 ∧
      ARITHMETIC_PRECISION_LIMIT < 4294967295 := by
  refine ⟨by decide, by decide, by decide⟩

/-- C5 as amended: `0 ≤ low ≤ high ≤ ARITHMETIC_PRECISION_LIMIT` holds at the
initialization `(0, ARITHMETIC_PRECISION_LIMIT)` of every encode and decode
call, is preserved by every per-symbol narrowing whose cumulative range is
well-formed and whose total fits the current interval width
(`start < end ≤ total ≤ high - low + 1`, as encoding guarantees while the
total mass stays within the renormalization bound — but which an adversarial
artifact can violate, see the counterexample), and is preserved by every
iteration of the encoder and decoder renormalization loops. -/
theorem C5_interval_invariant :
    ((0 : Nat) ≤ ARITHMETIC_PRECISION_LIMIT ∧
      ARITHMETIC_PRECISION_LIMIT ≤ ARITHMETIC_PRECISION_LIMIT) ∧
      (∀ low high s e t : Nat, low ≤ high → high ≤ ARITHMETIC_PRECISION_LIMIT →
        s < e → e ≤ t → t ≤ high - low + 1 →
        (narrow_interval_bounds low high s e t).1 ≤
            (narrow_interval_bounds low high s e t).2 ∧
          (narrow_interval_bounds low high s e t).2 ≤
            ARITHMETIC_PRECISION_LIMIT) ∧
      (∀ (w w2 : BitMagicWriter) (low high l2 h2 : Nat),
        low ≤ high → high ≤ ARITHMETIC_PRECISION_LIMIT →
        enc_norm_step w low high = some (w2, l2, h2) →
        l2 ≤ h2 ∧ h2 ≤ ARITHMETIC_PRECISION_LIMIT) ∧
      (∀ (r r2 : BitMagicReader) (low high l2 h2 : Nat),
        low ≤ high → high ≤ ARITHMETIC_PRECISION_LIMIT →
        dec_norm_step r low high = some (r2, l2, h2) →
        l2 ≤ h2 ∧ h2 ≤ ARITHMETIC_PRECISION_LIMIT) :=
  ⟨⟨Nat.zero_le _, Nat.le_refl _⟩,
    fun low high s e t hlh hhL hse het ht =>
      narrow_preserves_invariant low high s e t hlh hhL hse het ht,
    fun w w2 low high l2 h2 hlh hhL hstep =>
      enc_norm_step_preserves_invariant w w2 low high l2 h2 hlh hhL hstep,
    fun r r2 low high l2 h2 hlh hhL hstep =>
      dec_norm_step_preserves_invariant r r2 low high l2 h2 hlh hhL hstep⟩

/-- C5 witness: the three preservation statements applied at concrete states
(the narrowing of symbol `(0, 1)` out of total 1 from the initial interval,
an encoder iteration at `(0, 1)`, and a decoder iteration at `(0, 1)`). -/
theorem C5_witness :
    ((narrow_interval_bounds 0 ARITHMETIC_PRECISION_LIMIT 0 1 1).1 ≤
        (narrow_interval_bounds 0 ARITHMETIC_PRECISION_LIMIT 0 1 1).2 ∧
      (narrow_interval_bounds 0 ARITHMETIC_PRECISION_LIMIT 0 1 1).2 ≤
        ARITHMETIC_PRECISION_LIMIT) ∧
      ((0 : Nat) ≤ 3 ∧ (3 : Nat) ≤ ARITHMETIC_PRECISION_LIMIT) ∧
      ((2 : Nat) ≤ 3 ∧ (3 : Nat) ≤ ARITHMETIC_PRECISION_LIMIT) :=
  ⟨C5_interval_invariant.2.1 0 ARITHMETIC_PRECISION_LIMIT 0 1 1 (by decide)
      (by decide) (by decide) (by decide) (by decide),
    C5_interval_invariant.2.2.1 conjure_new (bit_plus_follow conjure_new 0)
      0 1 0 3 (by decide) (by decide) (by decide),
    C5_interval_invariant.2.2.2 (conjure_from_scroll [])
      (track_one_bit (conjure_from_scroll [])) 1 1 2 3 (by decide) (by decide)
      (by decide)⟩

/-! ### Claim C6: frequency table invariants -/

theorem bump_count_keys (cs : List (Nat × Nat)) (s : Nat) :
    (bump_count cs s).map Prod.fst =
      if s ∈ cs.map Prod.fst then cs.map Prod.fst else cs.map Prod.fst ++ [s] := by
  induction cs with
  | nil => simp [bump_count]
  | cons p t ih =>
    by_cases hk : p.1 = s
    · cases p
      simp_all [bump_count]
    · cases p with
      | mk k v =>
        simp only at hk
        rw [show bump_count ((k, v) :: t) s = (k, v) :: bump_count t s from by
          simp [bump_count, hk]]
        simp only [List.map_cons, ih, List.mem_cons]
        by_cases hm : s ∈ t.map Prod.fst
        · simp [hm, Ne.symm hk]
        · simp [hm, Ne.symm hk]

theorem bump_count_keys_nodup (cs : List (Nat × Nat)) (s : Nat)
    (h : (cs.map Prod.fst).Nodup) : ((bump_count cs s).map Prod.fst).Nodup := by
  rw [bump_count_keys]
  split
  · exact h
  · rename_i hm
    refine List.Nodup.append h (by simp) ?_
    intro a ha hb
    simp only [List.mem_singleton] at hb
    subst hb
    exact hm ha

theorem foldl_bump_count_keys_nodup (l : List Nat) (cs : List (Nat × Nat))
    (h : (cs.map Prod.fst).Nodup) :
    ((l.foldl bump_count cs).map Prod.fst).Nodup := by
  induction l generalizing cs with
  | nil => exact h
  | cons s t ih => exact ih (bump_count cs s) (bump_count_keys_nodup cs s h)

theorem count_occurrences_keys_nodup (l : List Nat) :
    ((count_occurrences l).map Prod.fst).Nodup :=
  foldl_bump_count_keys_nodup l [] (by simp)

theorem bump_count_snd_sum (cs : List (Nat × Nat)) (s : Nat) :
    ((bump_count cs s).map Prod.snd).sum = (cs.map Prod.snd).sum + 1 := by
  induction cs with
  | nil => simp [bump_count]
  | cons p t ih =>
    by_cases hk : p.1 = s
    · cases p with
      | mk k v =>
        simp only at hk
        subst hk
        simp [bump_count]
        omega
    · cases p with
      | mk k v =>
        simp only at hk
        rw [show bump_count ((k, v) :: t) s = (k, v) :: bump_count t s from by
          simp [bump_count, hk]]
        simp [ih]
        omega

/-- The counts collected by the frequency map total the symbol count. -/
theorem count_occurrences_snd_sum (l : List Nat) :
    ((count_occurrences l).map Prod.snd).sum = l.length := by
  suffices h : ∀ cs : List (Nat × Nat),
      ((l.foldl bump_count cs).map Prod.snd).sum = (cs.map Prod.snd).sum + l.length by
    simpa using h []
  induction l with
  | nil => simp [count_occurrences]
  | cons s t ih =>
    intro cs
    simp only [List.foldl_cons]
    rw [ih (bump_count cs s), bump_count_snd_sum]
    simp only [List.length_cons]
    omega

theorem cumulative_entries_chain (ps : List (Nat × Nat)) (acc : Nat) :
    (cumulative_entries ps acc).Chain' fun a b => b.2.2 = a.2.2 + a.2.1 := by
  induction ps generalizing acc with
  | nil => simp [cumulative_entries]
  | cons p t ih =>
    cases p with
    | mk s c =>
      cases t with
      | nil => simp [cumulative_entries]
      | cons q t2 =>
        cases q with
        | mk s2 c2 =>
          rw [show cumulative_entries ((s, c) :: (s2, c2) :: t2) acc =
              (s, c, acc) :: (s2, c2, acc + c) ::
                cumulative_entries t2 (acc + c + c2) from rfl]
          rw [List.chain'_cons]
          exact ⟨rfl, ih (acc + c)⟩

theorem cumulative_entries_counts (ps : List (Nat × Nat)) (acc : Nat) :
    (cumulative_entries ps acc).map (fun e => e.2.1) = ps.map Prod.snd := by
  induction ps generalizing acc with
  | nil => rfl
  | cons p t ih => cases p; simp [cumulative_entries, ih]

theorem cumulative_entries_ids (ps : List (Nat × Nat)) (acc : Nat) :
    (cumulative_entries ps acc).map Prod.fst = ps.map Prod.fst := by
  induction ps generalizing acc with
  | nil => rfl
  | cons p t ih => cases p; simp [cumulative_entries, ih]

/-- C6: the table produced by the frequency model builder — for any iteration
order of the frequency map — is sorted by strictly ascending symbol id,
consecutive entries chain as `cumulative_start + count = next cumulative_start`,
and the counts total `total_frequency_mass`. -/
theorem C6_frequency_table (syms : List Nat) (pairs : List (Nat × Nat))
    (hperm : pairs.Perm (count_occurrences syms)) :
    (analyze_symbolic_frequencies pairs).frequency_entries.Pairwise
        (fun a b => a.1 < b.1) ∧
      (analyze_symbolic_frequencies pairs).frequency_entries.Chain'
        (fun a b => b.2.2 = a.2.2 + a.2.1) ∧
      ((analyze_symbolic_frequencies pairs).frequency_entries.map
        fun e => e.2.1).sum =
        (analyze_symbolic_frequencies pairs).total_frequency_mass := by
  have hentries : (analyze_symbolic_frequencies pairs).frequency_entries =
      cumulative_entries (pairs.mergeSort fun a b => decide (a.1 ≤ b.1)) 0 := rfl
  have htotal : (analyze_symbolic_frequencies pairs).total_frequency_mass =
      ((pairs.mergeSort fun a b => decide (a.1 ≤ b.1)).map fun p => p.2).sum := rfl
  set sorted := pairs.mergeSort fun a b => decide (a.1 ≤ b.1) with hs
  have hsorted_le : sorted.Pairwise fun a b => a.1 ≤ b.1 := by
    have h := @List.sorted_mergeSort (Nat × Nat)
      (fun a b : Nat × Nat => decide (a.1 ≤ b.1))
      (fun a b c hab hbc => by
        simp only [decide_eq_true_eq] at *
        omega)
      (fun a b => by
        simp only [Bool.or_eq_true, decide_eq_true_eq]
        omega)
      pairs
    exact h.imp fun hab => by simpa using hab
  have hnodup_pairs : (pairs.map Prod.fst).Nodup :=
    ((hperm.map Prod.fst).nodup_iff).mpr (count_occurrences_keys_nodup syms)
  have hnodup_sorted : (sorted.map Prod.fst).Nodup :=
    (((List.mergeSort_perm pairs _).map Prod.fst).nodup_iff).mpr hnodup_pairs
  have hne : sorted.Pairwise fun a b => a.1 ≠ b.1 :=
    (List.pairwise_map).mp hnodup_sorted
  have hlt : sorted.Pairwise fun a b => a.1 < b.1 :=
    (hsorted_le.and hne).imp fun h => Nat.lt_of_le_of_ne h.1 h.2
  refine ⟨?_, ?_, ?_⟩
  · rw [hentries]
    have hids := cumulative_entries_ids sorted 0
    have h1 : ((cumulative_entries sorted 0).map Prod.fst).Pairwise (· < ·) := by
      rw [hids]
      exact (List.pairwise_map).mpr hlt
    exact (List.pairwise_map).mp h1
  · rw [hentries]
    exact cumulative_entries_chain sorted 0
  · rw [hentries, htotal, cumulative_entries_counts]

/-- C6 witness: the table invariants at a concrete symbol sequence and a
concrete (permuted) iteration order of its frequency map. -/
theorem C6_witness :
    [(66, 1), (65, 2)].Perm (count_occurrences [65, 66, 65]) ∧
      ((analyze_symbolic_frequencies [(66, 1), (65, 2)]).frequency_entries.Pairwise
          (fun a b => a.1 < b.1) ∧
        (analyze_symbolic_frequencies [(66, 1), (65, 2)]).frequency_entries.Chain'
          (fun a b => b.2.2 = a.2.2 + a.2.1) ∧
        ((analyze_symbolic_frequencies [(66, 1), (65, 2)]).frequency_entries.map
          fun e => e.2.1).sum =
          (analyze_symbolic_frequencies [(66, 1), (65, 2)]).total_frequency_mass) :=
  ⟨by decide, C6_frequency_table [65, 66, 65] [(66, 1), (65, 2)] (by decide)⟩

/-! ### Claim C10: substitution is reversible for any dictionary -/

/-- A successful dictionary match returns the index of the matched word and
its verified byte-for-byte occurrence at the current position. -/
theorem find_word_match_from_spec (s : List Nat) (prev : Option Nat)
    (dict : List (List Nat)) :
    ∀ (i j : Nat) (w : List Nat),
      find_word_match_from s prev i dict = some (j, w) →
      i ≤ j ∧ dict[j - i]? = some w ∧ s.take w.length = w := by
  induction dict with
  | nil => intro i j w h; simp [find_word_match_from] at h
  | cons v vs ih =>
    intro i j w h
    rw [find_word_match_from] at h
    split at h
    · rename_i hc
      simp only [Option.some.injEq, Prod.mk.injEq] at h
      obtain ⟨hj, hv⟩ := h
      subst hj hv
      exact ⟨Nat.le_refl _, by simp, hc.2.1⟩
    · obtain ⟨hij, hget, htake⟩ := ih (i + 1) j w h
      refine ⟨by omega, ?_, htake⟩
      have hsub : j - i = (j - (i + 1)) + 1 := by omega
      rw [hsub]
      simpa using hget

/-- C10: for every byte sequence and every dictionary whose words are all
non-empty, reconstructing the transformed symbol sequence with the same
dictionary returns exactly the original bytes — a substitution is emitted
only after a verified byte-for-byte match, so substitution is reversible for
any dictionary contents. -/
theorem C10_transform_reversible (x : List Nat) (dict : List (List Nat))
    (hx : ∀ b ∈ x, b ≤ 255) (hw : ∀ w ∈ dict, w ≠ []) :
    reconstruct_original_manuscript
        (transform_manuscript_to_symbols x dict) dict = x := by
  suffices h : ∀ (fuel : Nat) (s : List Nat) (prev : Option Nat),
      s.length ≤ fuel → (∀ b ∈ s, b ≤ 255) →
      reconstruct_original_manuscript (transform_from dict fuel prev s) dict = s by
    exact h x.length x none (Nat.le_refl _) hx
  intro fuel
  induction fuel with
  | zero =>
    intro s prev hlen _
    rw [List.length_eq_zero.mp (Nat.le_zero.mp hlen)]
    rfl
  | succ fuel ih =>
    intro s prev hlen hs
    cases s with
    | nil => rfl
    | cons b rest =>
      rw [transform_from]
      split
      · cases hfind : find_word_match_from (b :: rest) prev 0 dict with
        | some p =>
          cases p with
          | mk j w =>
            obtain ⟨-, hget, htake⟩ :=
              find_word_match_from_spec (b :: rest) prev dict 0 j w hfind
            rw [Nat.sub_zero] at hget
            have hmem : w ∈ dict := List.getElem?_mem hget
            have hwne : w ≠ [] := hw w hmem
            have hwlen : 1 ≤ w.length := by
              cases w with
              | nil => exact absurd rfl hwne
              | cons c cs => simp
            have hlen2 : ((b :: rest).drop w.length).length ≤ fuel := by
              simp only [List.length_drop, List.length_cons]
              simp only [List.length_cons] at hlen
              omega
            have hdrop_mem : ∀ c ∈ (b :: rest).drop w.length, c ≤ 255 :=
              fun c hc => hs c (List.mem_of_mem_drop hc)
            rw [reconstruct_original_manuscript]
            rw [if_neg (by omega)]
            rw [show 256 + j - 256 = j from by omega, hget]
            rw [ih ((b :: rest).drop w.length) _ hlen2 hdrop_mem]
            conv_rhs => rw [← List.take_append_drop w.length (b :: rest)]
            rw [htake]
        | none =>
          rw [reconstruct_original_manuscript]
          rw [if_pos (hs b (List.mem_cons_self b rest))]
          have hlen2 : rest.length ≤ fuel := by
            simp only [List.length_cons] at hlen
            omega
          rw [ih rest (some b) hlen2
            (fun c hc => hs c (List.mem_cons_of_mem b hc))]
      · rw [reconstruct_original_manuscript]
        rw [if_pos (hs b (List.mem_cons_self b rest))]
        have hlen2 : rest.length ≤ fuel := by
          simp only [List.length_cons] at hlen
          omega
        rw [ih rest (some b) hlen2
          (fun c hc => hs c (List.mem_cons_of_mem b hc))]

/-- C10 witness: the reversibility statement at a concrete byte sequence
and dictionary. -/
theorem C10_witness :
    ((∀ b ∈ [97, 98, 32, 97, 98], b ≤ 255) ∧
      (∀ w ∈ [[97, 98]], w ≠ ([] : List Nat))) ∧
      reconstruct_original_manuscript
          (transform_manuscript_to_symbols [97, 98, 32, 97, 98] [[97, 98]])
          [[97, 98]] = [97, 98, 32, 97, 98] :=
  ⟨⟨by decide, by decide⟩,
    C10_transform_reversible [97, 98, 32, 97, 98] [[97, 98]]
      (by decide) (by decide)⟩

/-! ### Claim C7: serialization round-trip -/

theorem read_u32_of_le (n : Nat) (r : List Nat) (h : n < 2 ^ 32) :
    read_u32 (u32_le_bytes n ++ r) = some (n, r) := by
  simp only [u32_le_bytes, List.cons_append, List.nil_append, read_u32,
    Option.some.injEq, Prod.mk.injEq]
  refine ⟨by omega, trivial⟩

theorem read_u64_of_le (n : Nat) (r : List Nat) (h : n < 2 ^ 64) :
    read_u64 (u64_le_bytes n ++ r) = some (n, r) := by
  simp only [u64_le_bytes, List.cons_append, List.nil_append, read_u64,
    Option.some.injEq, Prod.mk.injEq]
  refine ⟨by omega, trivial⟩

theorem utf8_lossy_scalars_ascii (fuel : Nat) :
    ∀ l : List Nat, l.length ≤ fuel → (∀ b ∈ l, b < 128) →
      utf8_lossy_scalars fuel l = l := by
  induction fuel with
  | zero =>
    intro l hlen _
    rw [List.length_eq_zero.mp (Nat.le_zero.mp hlen)]
    rfl
  | succ fuel ih =>
    intro l hlen hb
    cases l with
    | nil => rfl
    | cons b rest =>
      rw [utf8_lossy_scalars.eq_def]
      dsimp only
      rw [if_pos (hb b (List.mem_cons_self b rest))]
      simp only [List.length_cons] at hlen
      rw [ih rest (by omega) fun c hc => hb c (List.mem_cons_of_mem b hc)]

/-- `String::from_utf8_lossy` is the identity on ASCII byte sequences. -/
theorem from_utf8_lossy_ascii (l : List Nat) (h : ∀ b ∈ l, b < 128) :
    from_utf8_lossy l = l := by
  rw [from_utf8_lossy, utf8_lossy_scalars_ascii l.length l (Nat.le_refl _) h]
  induction l with
  | nil => rfl
  | cons b rest ih =>
    have hb : b < 128 := h b (List.mem_cons_self b rest)
    simp only [List.map_cons, List.flatten_cons]
    rw [show scalar_utf8_bytes b = [b] from by rw [scalar_utf8_bytes, if_pos hb]]
    rw [ih fun c hc => h c (List.mem_cons_of_mem b hc)]
    rfl

theorem read_words_serialized (ws : List (List Nat)) (rest : List Nat)
    (h : ∀ w ∈ ws, w.length < 2 ^ 32 ∧ ∀ b ∈ w, b < 128) :
    read_words ws.length
        ((ws.map fun w => u32_le_bytes w.length ++ w).flatten ++ rest) =
      some (ws, rest) := by
  induction ws with
  | nil => rfl
  | cons w t ih =>
    obtain ⟨hwlen, hwb⟩ := h w (List.mem_cons_self w t)
    simp only [List.length_cons, List.map_cons, List.flatten_cons]
    rw [read_words]
    simp only [List.append_assoc]
    rw [read_u32_of_le w.length _ hwlen]
    simp only [Option.bind_eq_bind, Option.some_bind]
    rw [if_pos (by simp)]
    rw [List.take_left, List.drop_left]
    rw [ih fun v hv => h v (List.mem_cons_of_mem w hv)]
    simp only [Option.some_bind]
    rw [from_utf8_lossy_ascii w hwb]

theorem read_entries_serialized (es : List (Nat × Nat × Nat)) (rest : List Nat)
    (h : ∀ e ∈ es, e.1 < 2 ^ 32 ∧ e.2.1 < 2 ^ 64 ∧ e.2.2 < 2 ^ 64) :
    read_entries es.length
        ((es.map fun e =>
          u32_le_bytes e.1 ++ (u64_le_bytes e.2.1 ++ u64_le_bytes e.2.2)).flatten ++
          rest) =
      some (es, rest) := by
  induction es with
  | nil => rfl
  | cons e t ih =>
    obtain ⟨h1, h2, h3⟩ := h e (List.mem_cons_self e t)
    simp only [List.length_cons, List.map_cons, List.flatten_cons]
    rw [read_entries]
    simp only [List.append_assoc]
    rw [read_u32_of_le e.1 _ h1]
    simp only [Option.bind_eq_bind, Option.some_bind]
    rw [read_u64_of_le e.2.1 _ h2]
    simp only [Option.some_bind]
    rw [read_u64_of_le e.2.2 _ h3]
    simp only [Option.some_bind]
    simp only [List.append_assoc] at ih
    rw [ih fun f hf => h f (List.mem_cons_of_mem e hf)]
    simp only [Option.some_bind]

/-- C7: deserializing the serialization of an artifact yields the artifact
itself (hence a decode-equivalent artifact), for every artifact whose fields
fit the serialized fixed-width layout — dictionary words are ASCII with
lengths below `2^32` (every word the encoder discovers is made of ASCII
letters and apostrophes), table entries carry u32 symbol ids and u64
counts/offsets, and the counts fit u32/u64 as typed in the source.  The
layout itself (little-endian u32/u64 fields in the documented order) is the
definition of `serialize_artifact`. -/
theorem C7_serialization_roundtrip (a : CompressionArtifact)
    (hwc : a.mystical_word_grimoire.length < 2 ^ 32)
    (hw : ∀ w ∈ a.mystical_word_grimoire, w.length < 2 ^ 32 ∧ ∀ b ∈ w, b < 128)
    (hfc : a.mystical_frequency_codex.length < 2 ^ 32)
    (hf : ∀ e ∈ a.mystical_frequency_codex,
      e.1 < 2 ^ 32 ∧ e.2.1 < 2 ^ 64 ∧ e.2.2 < 2 ^ 64)
    (ht : a.total_frequency_essence < 2 ^ 64)
    (hsl : a.compressed_bit_stream.length < 2 ^ 32) :
    deserialize_artifact (serialize_artifact a) = some a ∧
      (deserialize_artifact (serialize_artifact a)).map
          unweave_compression_spell =
        some (unweave_compression_spell a) := by
  obtain ⟨codex, total, stream, grim⟩ := a
  simp only at hwc hw hfc hf ht hsl
  have hmain : deserialize_artifact
      (serialize_artifact ⟨codex, total, stream, grim⟩) =
      some ⟨codex, total, stream, grim⟩ := by
    rw [serialize_artifact, deserialize_artifact]
    simp only [List.append_assoc]
    rw [read_u32_of_le _ _ hwc]
    simp only [Option.bind_eq_bind, Option.some_bind]
    rw [read_words_serialized grim _ hw]
    simp only [Option.some_bind]
    rw [read_u32_of_le _ _ hfc]
    simp only [Option.some_bind]
    rw [read_entries_serialized codex _ hf]
    simp only [Option.some_bind]
    rw [read_u64_of_le _ _ ht]
    simp only [Option.some_bind]
    rw [read_u32_of_le _ _ hsl]
    simp only [Option.some_bind]
    rw [if_pos (Nat.le_refl _)]
    rw [List.take_length]
  exact ⟨hmain, by rw [hmain]; rfl⟩

/-- C7 witness: the round-trip at a concrete artifact. -/
theorem C7_witness :
    deserialize_artifact (serialize_artifact
        ⟨[(65, 1, 0)], 1, [128], [[104, 105]]⟩) =
      some ⟨[(65, 1, 0)], 1, [128], [[104, 105]]⟩ :=
  (C7_serialization_roundtrip ⟨[(65, 1, 0)], 1, [128], [[104, 105]]⟩
    (by decide) (by decide) (by decide) (by decide) (by decide) (by decide)).1

/-! ### Claim C3: no precision-overflow check on encode -/

/-- The tokenizer buffers an unbroken letter run in full. -/
theorem foldl_word_scan_replicate (n : Nat) :
    ∀ (counts : List (List Nat × Nat)) (buf : List Nat),
      (List.replicate n 65).foldl word_scan_step (counts, buf) =
        (counts, buf ++ List.replicate n 65) := by
  induction n with
  | zero => intro counts buf; simp
  | succ n ih =>
    intro counts buf
    rw [List.replicate_succ, List.foldl_cons]
    rw [show word_scan_step (counts, buf) 65 = (counts, buf ++ [65]) from by
      simp [word_scan_step, is_ascii_alphabetic]]
    rw [ih counts (buf ++ [65])]
    simp

theorem word_frequency_almanac_replicate (n : Nat) (h3 : 3 ≤ n) :
    word_frequency_almanac (List.replicate n 65) =
      [(List.replicate n 65, 1)] := by
  rw [word_frequency_almanac, foldl_word_scan_replicate n [] []]
  simp only [List.nil_append]
  rw [word_flush, if_pos (by simpa using h3)]
  rfl

theorem discover_replicate (n : Nat) (hn : 1000 ≤ n) :
    discover_profitable_word_enchantments (List.replicate n 65)
      [(List.replicate n 65, 1)] = [] := by
  rw [discover_profitable_word_enchantments]
  rw [if_neg (by simp; omega)]
  rw [show profit_candidates [(List.replicate n 65, 1)] = [] from by
    simp [profit_candidates]]
  simp

/-- With an empty dictionary, substitution is the identity on bytes. -/
theorem transform_empty_dict (x : List Nat) :
    transform_manuscript_to_symbols x [] = x := by
  suffices h : ∀ (fuel : Nat) (s : List Nat) (prev : Option Nat),
      s.length ≤ fuel → transform_from [] fuel prev s = s by
    exact h x.length x none (Nat.le_refl _)
  intro fuel
  induction fuel with
  | zero =>
    intro s prev hlen
    rw [List.length_eq_zero.mp (Nat.le_zero.mp hlen)]
    rfl
  | succ fuel ih =>
    intro s prev hlen
    cases s with
    | nil => rfl
    | cons b rest =>
      simp only [List.length_cons] at hlen
      rw [transform_from]
      split
      · rw [show find_word_match_from (b :: rest) prev 0 [] = none from rfl]
        rw [ih rest (some b) (by omega)]
      · rw [ih rest (some b) (by omega)]

theorem count_occurrences_replicate (n : Nat) (h1 : 1 ≤ n) :
    count_occurrences (List.replicate n 65) = [(65, n)] := by
  have haux : ∀ (m k : Nat),
      (List.replicate m 65).foldl bump_count [(65, k)] = [(65, k + m)] := by
    intro m
    induction m with
    | zero => intro k; simp
    | succ m ih =>
      intro k
      rw [List.replicate_succ, List.foldl_cons]
      rw [show bump_count [(65, k)] 65 = [(65, k + 1)] from by simp [bump_count]]
      rw [ih (k + 1)]
      simp [Nat.add_assoc, Nat.add_comm 1 m]
  cases n with
  | zero => omega
  | succ m =>
    rw [count_occurrences, List.replicate_succ, List.foldl_cons]
    rw [show bump_count [] 65 = [(65, 1)] from rfl]
    rw [haux m 1]
    simp [Nat.add_comm 1 m]

/-- Encoding a symbol that spans the whole cumulative range leaves the
interval and the writer untouched (the case of a one-symbol alphabet). -/
theorem encode_full_range_symbol_fixed :
    encode_mystical_symbol conjure_new 0 ARITHMETIC_PRECISION_LIMIT
        (0 % 2 ^ 32) ((0 + 4194305) % 2 ^ 32) (4194305 % 2 ^ 32) =
      (conjure_new, 0, ARITHMETIC_PRECISION_LIMIT) := by
  decide

theorem encode_all_symbols_replicate (m : Nat) :
    encode_all_symbols (List.replicate m 65) [(65, 4194305, 0)] 4194305
        (conjure_new, 0, ARITHMETIC_PRECISION_LIMIT) =
      (conjure_new, 0, ARITHMETIC_PRECISION_LIMIT) := by
  induction m with
  | zero => rfl
  | succ m ih =>
    rw [List.replicate_succ, encode_all_symbols]
    rw [show List.find? (fun e => e.1 == 65) [((65 : Nat), (4194305 : Nat), (0 : Nat))] =
      some (65, 4194305, 0) from rfl]
    dsimp only
    rw [encode_full_range_symbol_fixed]
    exact ih

/-- C3 counterexample: an input of 4,194,305 = 2^22 + 1 identical bytes — one
more symbol than the renormalization safety bound 2^22 — is encoded without
any failure: `weave_compression_spell` (which has no error path at all)
returns a complete artifact with `total_frequency_essence = 4194305` and
bitstream `[0x80]`.  The first two conjuncts certify that the supplied map
iteration orders are the genuine ones for this input, so this is a real
encode execution. -/
theorem C3_counterexample :
    [(List.replicate 4194305 65, 1)].Perm
        (word_frequency_almanac
          (utf8_lossy_scalars (List.replicate 4194305 65).length
            (List.replicate 4194305 65))) ∧
      [(65, 4194305)].Perm
        (count_occurrences
          (transform_manuscript_to_symbols (List.replicate 4194305 65)
            (discover_profitable_word_enchantments (List.replicate 4194305 65)
              [(List.replicate 4194305 65, 1)]))) ∧
      weave_compression_spell (List.replicate 4194305 65)
          [(List.replicate 4194305 65, 1)] [(65, 4194305)] =
        ⟨[(65, 4194305, 0)], 4194305, [128], []⟩ ∧
      4194304 < 4194305 := by
  have hascii : utf8_lossy_scalars (List.replicate 4194305 65).length
      (List.replicate 4194305 65) = List.replicate 4194305 65 :=
    utf8_lossy_scalars_ascii _ _ (Nat.le_refl _)
      (fun b hb => by rw [List.eq_of_mem_replicate hb]; omega)
  have hdisc : discover_profitable_word_enchantments (List.replicate 4194305 65)
      [(List.replicate 4194305 65, 1)] = [] :=
    discover_replicate 4194305 (by omega)
  have htrans : transform_manuscript_to_symbols (List.replicate 4194305 65)
      ([] : List (List Nat)) = List.replicate 4194305 65 :=
    transform_empty_dict _
  have hcount : count_occurrences (List.replicate 4194305 65) = [(65, 4194305)] :=
    count_occurrences_replicate 4194305 (by omega)
  have hana : analyze_symbolic_frequencies [(65, 4194305)] =
      ⟨[(65, 4194305, 0)], 4194305⟩ := by
    rw [analyze_symbolic_frequencies, List.mergeSort_singleton]
    rfl
  refine ⟨?_, ?_, ?_, by decide⟩
  · rw [hascii, word_frequency_almanac_replicate 4194305 (by omega)]
  · rw [hdisc, htrans, hcount]
  · rw [weave_compression_spell]
    simp only [hdisc, htrans, hana]
    rw [encode_all_symbols_replicate 4194305]
    rfl

/-- C3 as amended: the encode operation performs no precision check and can
never fail — for every input and every map iteration order it returns an
artifact whose `total_frequency_essence` equals the symbol count, even when
that count exceeds the renormalization safety bound `2^22` (as the
counterexample exercises concretely). -/
theorem C3_encode_never_fails (x : List Nat)
    (word_order : List (List Nat × Nat)) (freq_order : List (Nat × Nat))
    (h1 : word_order.Perm
      (word_frequency_almanac (utf8_lossy_scalars x.length x)))
    (h2 : freq_order.Perm
      (count_occurrences (transform_manuscript_to_symbols x
        (discover_profitable_word_enchantments x word_order)))) :
    (weave_compression_spell x word_order freq_order).total_frequency_essence =
      (transform_manuscript_to_symbols x
        (discover_profitable_word_enchantments x word_order)).length := by
  have htot : (weave_compression_spell x word_order freq_order).total_frequency_essence =
      ((freq_order.mergeSort fun a b => decide (a.1 ≤ b.1)).map fun p => p.2).sum :=
    rfl
  rw [htot]
  have hperm : (freq_order.mergeSort fun a b => decide (a.1 ≤ b.1)).Perm
      (count_occurrences (transform_manuscript_to_symbols x
        (discover_profitable_word_enchantments x word_order))) :=
    (List.mergeSort_perm freq_order _).trans h2
  rw [List.Perm.sum_eq (hperm.map fun p => p.2)]
  exact count_occurrences_snd_sum _

/-- C3 witness: the amended statement at a concrete two-byte input. -/
theorem C3_witness :
    (([] : List (List Nat × Nat)).Perm
        (word_frequency_almanac (utf8_lossy_scalars [65, 66].length [65, 66])) ∧
      [(65, 1), (66, 1)].Perm
        (count_occurrences (transform_manuscript_to_symbols [65, 66]
          (discover_profitable_word_enchantments [65, 66] [])))) ∧
      (weave_compression_spell [65, 66] [] [(65, 1), (66, 1)]).total_frequency_essence =
        (transform_manuscript_to_symbols [65, 66]
          (discover_profitable_word_enchantments [65, 66] [])).length :=
  ⟨⟨by decide, by decide⟩,
    C3_encode_never_fails [65, 66] [] [(65, 1), (66, 1)] (by decide) (by decide)⟩

/-! ### Claim C4: determinism of encoding -/

/-- Two mutually permuted lists that are both sorted by a comparison that is
antisymmetric on their elements are equal (the uniqueness of a stable sort's
output once keys do not tie). -/
theorem sorted_perm_eq {α : Type} (le : α → α → Bool) :
    ∀ (l1 l2 : List α), l1.Perm l2 →
      l1.Pairwise (fun a b => le a b = true) →
      l2.Pairwise (fun a b => le a b = true) →
      (∀ a ∈ l1, ∀ b ∈ l1, le a b = true → le b a = true → a = b) →
      l1 = l2
  | [], l2, hp, _, _, _ => hp.nil_eq
  | h1 :: t1, [], hp, _, _, _ => by
    have := hp.length_eq
    simp at this
  | h1 :: t1, h2 :: t2, hp, hs1, hs2, hanti => by
    have hh : h1 = h2 := by
      have hmem1 : h1 ∈ h2 :: t2 := hp.subset (List.mem_cons_self h1 t1)
      rcases List.mem_cons.mp hmem1 with heq | hmem1'
      · exact heq
      · have hle21 : le h2 h1 = true := (List.pairwise_cons.mp hs2).1 h1 hmem1'
        have hmem2 : h2 ∈ h1 :: t1 := hp.symm.subset (List.mem_cons_self h2 t2)
        rcases List.mem_cons.mp hmem2 with heq | hmem2'
        · exact heq.symm
        · have hle12 : le h1 h2 = true := (List.pairwise_cons.mp hs1).1 h2 hmem2'
          exact hanti h1 (List.mem_cons_self h1 t1) h2
            (List.mem_cons_of_mem h1 hmem2') hle12 hle21
    subst hh
    have hp2 : t1.Perm t2 := hp.cons_inv
    have ht : t1 = t2 :=
      sorted_perm_eq le t1 t2 hp2 (List.pairwise_cons.mp hs1).2
        (List.pairwise_cons.mp hs2).2
        (fun a ha b hb hab hba =>
          hanti a (List.mem_cons_of_mem h1 ha) b (List.mem_cons_of_mem h1 hb)
            hab hba)
    rw [ht]

/-- In a list whose elements have pairwise distinct keys, equal keys force
equal elements. -/
theorem pairwise_key_eq {α β : Type} (key : α → β) :
    ∀ l : List α, l.Pairwise (fun a b => key a ≠ key b) →
      ∀ a ∈ l, ∀ b ∈ l, key a = key b → a = b
  | [], _, a, ha, _, _, _ => absurd ha (List.not_mem_nil a)
  | h :: t, hpw, a, ha, b, hb, hk => by
    rcases List.mem_cons.mp ha with rfl | ha'
    · rcases List.mem_cons.mp hb with rfl | hb'
      · rfl
      · exact absurd hk ((List.pairwise_cons.mp hpw).1 b hb')
    · rcases List.mem_cons.mp hb with rfl | hb'
      · exact absurd hk.symm ((List.pairwise_cons.mp hpw).1 a ha')
      · exact pairwise_key_eq key t (List.pairwise_cons.mp hpw).2 a ha' b hb' hk

/-- C4 as amended: encoding is deterministic up to hash-map iteration order;
in particular, whenever the qualifying dictionary candidates carry pairwise
distinct estimated savings, any two encode executions of the same input
(arbitrary iteration orders of both maps) produce identical artifacts.  (When
two candidates tie in savings the stable sort preserves the unspecified map
order and the artifacts can differ — see the counterexample.) -/
theorem C4_deterministic_without_ties (x : List Nat)
    (o1 o2 : List (List Nat × Nat)) (f1 f2 : List (Nat × Nat))
    (ho1 : o1.Perm (word_frequency_almanac (utf8_lossy_scalars x.length x)))
    (ho2 : o2.Perm (word_frequency_almanac (utf8_lossy_scalars x.length x)))
    (hsav : (profit_candidates
      (word_frequency_almanac (utf8_lossy_scalars x.length x))).Pairwise
      fun a b => a.2.2 ≠ b.2.2)
    (hf1 : f1.Perm (count_occurrences (transform_manuscript_to_symbols x
      (discover_profitable_word_enchantments x o1))))
    (hf2 : f2.Perm (count_occurrences (transform_manuscript_to_symbols x
      (discover_profitable_word_enchantments x o2)))) :
    weave_compression_spell x o1 f1 = weave_compression_spell x o2 f2 := by
  have hcand1 : (profit_candidates o1).Perm (profit_candidates
      (word_frequency_almanac (utf8_lossy_scalars x.length x))) :=
    ho1.filterMap _
  have hcand2 : (profit_candidates o2).Perm (profit_candidates
      (word_frequency_almanac (utf8_lossy_scalars x.length x))) :=
    ho2.filterMap _
  have hdisc : discover_profitable_word_enchantments x o1 =
      discover_profitable_word_enchantments x o2 := by
    rw [discover_profitable_word_enchantments,
      discover_profitable_word_enchantments]
    by_cases hx : x.length < 1000
    · rw [if_pos hx, if_pos hx]
    · rw [if_neg hx, if_neg hx]
      have hms : (profit_candidates o1).mergeSort
          (fun a b => decide (b.2.2 ≤ a.2.2)) =
          (profit_candidates o2).mergeSort (fun a b => decide (b.2.2 ≤ a.2.2)) := by
        apply sorted_perm_eq
        · exact (List.mergeSort_perm _ _).trans
            ((hcand1.trans hcand2.symm).trans (List.mergeSort_perm _ _).symm)
        · exact @List.sorted_mergeSort (List Nat × Nat × Int)
            (fun a b => decide (b.2.2 ≤ a.2.2))
            (fun a b c hab hbc => by
              simp only [decide_eq_true_eq] at *
              omega)
            (fun a b => by
              simp only [Bool.or_eq_true, decide_eq_true_eq]
              omega)
            (profit_candidates o1)
        · exact @List.sorted_mergeSort (List Nat × Nat × Int)
            (fun a b => decide (b.2.2 ≤ a.2.2))
            (fun a b c hab hbc => by
              simp only [decide_eq_true_eq] at *
              omega)
            (fun a b => by
              simp only [Bool.or_eq_true, decide_eq_true_eq]
              omega)
            (profit_candidates o2)
        · intro a ha b hb hab hba
          have ha2 : a ∈ profit_candidates
              (word_frequency_almanac (utf8_lossy_scalars x.length x)) :=
            hcand1.subset (List.mem_mergeSort.mp ha)
          have hb2 : b ∈ profit_candidates
              (word_frequency_almanac (utf8_lossy_scalars x.length x)) :=
            hcand1.subset (List.mem_mergeSort.mp hb)
          have heq : a.2.2 = b.2.2 := by
            have h1 := of_decide_eq_true hab
            have h2 := of_decide_eq_true hba
            omega
          exact pairwise_key_eq (fun c => c.2.2) _ hsav a ha2 b hb2 heq
      rw [hms]
  have hf2' : f2.Perm (count_occurrences (transform_manuscript_to_symbols x
      (discover_profitable_word_enchantments x o1))) := by
    rw [hdisc]
    exact hf2
  have hf12 : f1.Perm f2 := hf1.trans hf2'.symm
  have hkeys : (count_occurrences (transform_manuscript_to_symbols x
      (discover_profitable_word_enchantments x o1))).Pairwise
      fun a b => a.1 ≠ b.1 :=
    (List.pairwise_map).mp (count_occurrences_keys_nodup _)
  have hana : analyze_symbolic_frequencies f1 = analyze_symbolic_frequencies f2 := by
    have hms2 : f1.mergeSort (fun a b => decide (a.1 ≤ b.1)) =
        f2.mergeSort (fun a b => decide (a.1 ≤ b.1)) := by
      apply sorted_perm_eq
      · exact (List.mergeSort_perm _ _).trans
          (hf12.trans (List.mergeSort_perm _ _).symm)
      · exact @List.sorted_mergeSort (Nat × Nat)
          (fun a b => decide (a.1 ≤ b.1))
          (fun a b c hab hbc => by
            simp only [decide_eq_true_eq] at *
            omega)
          (fun a b => by
            simp only [Bool.or_eq_true, decide_eq_true_eq]
            omega)
          f1
      · exact @List.sorted_mergeSort (Nat × Nat)
          (fun a b => decide (a.1 ≤ b.1))
          (fun a b c hab hbc => by
            simp only [decide_eq_true_eq] at *
            omega)
          (fun a b => by
            simp only [Bool.or_eq_true, decide_eq_true_eq]
            omega)
          f2
      · intro a ha b hb hab hba
        have ha2 := hf1.subset (List.mem_mergeSort.mp ha)
        have hb2 := hf1.subset (List.mem_mergeSort.mp hb)
        have heq : a.1 = b.1 :=
          Nat.le_antisymm (of_decide_eq_true hab) (of_decide_eq_true hba)
        exact pairwise_key_eq Prod.fst _ hkeys a ha2 b hb2 heq
    rw [analyze_symbolic_frequencies, analyze_symbolic_frequencies, hms2]
  rw [weave_compression_spell, weave_compression_spell, hdisc, hana]

/-- C4 witness: the tie-free determinism statement applied to a concrete
input, with the two frequency-map orders genuinely different. -/
theorem C4_witness :
    ([(65, 1), (66, 1)].Perm
        (count_occurrences (transform_manuscript_to_symbols [65, 66]
          (discover_profitable_word_enchantments [65, 66] []))) ∧
      [(66, 1), (65, 1)].Perm
        (count_occurrences (transform_manuscript_to_symbols [65, 66]
          (discover_profitable_word_enchantments [65, 66] [])))) ∧
      weave_compression_spell [65, 66] [] [(65, 1), (66, 1)] =
        weave_compression_spell [65, 66] [] [(66, 1), (65, 1)] :=
  ⟨⟨by decide, by decide⟩,
    C4_deterministic_without_ties [65, 66] [] [] [(65, 1), (66, 1)]
      [(66, 1), (65, 1)] (by decide) (by decide) (by decide) (by decide)
      (by decide)⟩

/-- One block of the tie counterexample input: from any valid word start, the
scanner substitutes both words of the dictionary and continues after the
trailing space. -/
theorem t_step_gen (d : List (List Nat)) (ia ib : Nat)
    (hfa : ∀ (rest : List Nat) (prev : Option Nat), valid_word_start prev = true →
      find_word_match_from
        (97 :: 97 :: 97 :: 97 :: 32 :: 98 :: 98 :: 98 :: 98 :: 32 :: rest) prev 0 d =
        some (ia, [97, 97, 97, 97]))
    (hfb : ∀ (rest : List Nat) (prev : Option Nat), valid_word_start prev = true →
      find_word_match_from (98 :: 98 :: 98 :: 98 :: 32 :: rest) prev 0 d =
        some (ib, [98, 98, 98, 98]))
    (rest : List Nat) (fuel : Nat) (prev : Option Nat)
    (hprev : valid_word_start prev = true) :
    transform_from d (fuel + 4) prev
        (97 :: 97 :: 97 :: 97 :: 32 :: 98 :: 98 :: 98 :: 98 :: 32 :: rest) =
      (256 + ia) :: 32 :: (256 + ib) :: 32 :: transform_from d fuel (some 32) rest := by
  rw [transform_from]
  rw [if_pos (Or.inl (by decide))]
  rw [hfa rest prev hprev]
  dsimp only
  rw [if_neg (by decide)]
  rw [show (97 :: 97 :: 97 :: 97 :: 32 :: 98 :: 98 :: 98 :: 98 :: 32 :: rest).drop
      [97, 97, 97, 97].length = 32 :: 98 :: 98 :: 98 :: 98 :: 32 :: rest from rfl]
  rw [show ([97, 97, 97, 97] : List Nat).getLastD 0 = 97 from rfl]
  rw [transform_from]
  rw [if_neg (by decide)]
  rw [transform_from]
  rw [if_pos (Or.inl (by decide))]
  rw [hfb rest (some 32) (by decide)]
  dsimp only
  rw [if_neg (by decide)]
  rw [show (98 :: 98 :: 98 :: 98 :: 32 :: rest).drop
      [98, 98, 98, 98].length = 32 :: rest from rfl]
  rw [show ([98, 98, 98, 98] : List Nat).getLastD 0 = 98 from rfl]
  rw [transform_from]
  rw [if_neg (by decide)]

theorem find_a_d1 (rest : List Nat) (prev : Option Nat)
    (hprev : valid_word_start prev = true) :
    find_word_match_from
        (97 :: 97 :: 97 :: 97 :: 32 :: 98 :: 98 :: 98 :: 98 :: 32 :: rest) prev 0
        [[97, 97, 97, 97], [98, 98, 98, 98]] =
      some (0, [97, 97, 97, 97]) := by
  rw [find_word_match_from]
  rw [if_pos ⟨by simp only [List.length_cons, List.length_nil]; omega, rfl, hprev, Or.inr rfl⟩]

theorem find_b_d1 (rest : List Nat) (prev : Option Nat)
    (hprev : valid_word_start prev = true) :
    find_word_match_from (98 :: 98 :: 98 :: 98 :: 32 :: rest) prev 0
        [[97, 97, 97, 97], [98, 98, 98, 98]] =
      some (1, [98, 98, 98, 98]) := by
  rw [find_word_match_from]
  rw [if_neg (by intro h; simp at h)]
  rw [find_word_match_from]
  rw [if_pos ⟨by simp only [List.length_cons, List.length_nil]; omega, rfl, hprev, Or.inr rfl⟩]

theorem find_a_d2 (rest : List Nat) (prev : Option Nat)
    (hprev : valid_word_start prev = true) :
    find_word_match_from
        (97 :: 97 :: 97 :: 97 :: 32 :: 98 :: 98 :: 98 :: 98 :: 32 :: rest) prev 0
        [[98, 98, 98, 98], [97, 97, 97, 97]] =
      some (1, [97, 97, 97, 97]) := by
  rw [find_word_match_from]
  rw [if_neg (by intro h; simp at h)]
  rw [find_word_match_from]
  rw [if_pos ⟨by simp only [List.length_cons, List.length_nil]; omega, rfl, hprev, Or.inr rfl⟩]

theorem find_b_d2 (rest : List Nat) (prev : Option Nat)
    (hprev : valid_word_start prev = true) :
    find_word_match_from (98 :: 98 :: 98 :: 98 :: 32 :: rest) prev 0
        [[98, 98, 98, 98], [97, 97, 97, 97]] =
      some (0, [98, 98, 98, 98]) := by
  rw [find_word_match_from]
  rw [if_pos ⟨by simp only [List.length_cons, List.length_nil]; omega, rfl, hprev, Or.inr rfl⟩]

theorem t_blocks_gen (d : List (List Nat)) (ia ib : Nat)
    (hfa : ∀ (rest : List Nat) (prev : Option Nat), valid_word_start prev = true →
      find_word_match_from
        (97 :: 97 :: 97 :: 97 :: 32 :: 98 :: 98 :: 98 :: 98 :: 32 :: rest) prev 0 d =
        some (ia, [97, 97, 97, 97]))
    (hfb : ∀ (rest : List Nat) (prev : Option Nat), valid_word_start prev = true →
      find_word_match_from (98 :: 98 :: 98 :: 98 :: 32 :: rest) prev 0 d =
        some (ib, [98, 98, 98, 98])) :
    ∀ (n fuel : Nat) (prev : Option Nat), 10 * n ≤ fuel →
      valid_word_start prev = true →
      transform_from d fuel prev
          ((List.replicate n
            ([97, 97, 97, 97, 32, 98, 98, 98, 98, 32] : List Nat)).flatten) =
        (List.replicate n ([256 + ia, 32, 256 + ib, 32] : List Nat)).flatten := by
  intro n
  induction n with
  | zero =>
    intro fuel prev _ _
    cases fuel <;> rfl
  | succ n ih =>
    intro fuel prev hfuel hprev
    obtain ⟨f, rfl⟩ : ∃ f, fuel = f + 4 := ⟨fuel - 4, by omega⟩
    rw [List.replicate_succ, List.flatten_cons, List.replicate_succ,
      List.flatten_cons]
    rw [show ([97, 97, 97, 97, 32, 98, 98, 98, 98, 32] : List Nat) ++
        (List.replicate n ([97, 97, 97, 97, 32, 98, 98, 98, 98, 32] : List Nat)).flatten =
        97 :: 97 :: 97 :: 97 :: 32 :: 98 :: 98 :: 98 :: 98 :: 32 ::
          (List.replicate n
            ([97, 97, 97, 97, 32, 98, 98, 98, 98, 32] : List Nat)).flatten from rfl]
    rw [t_step_gen d ia ib hfa hfb _ f prev hprev]
    rw [ih f (some 32) (by omega) (by decide)]
    rfl

theorem c4_flatten_length (n : Nat) :
    ((List.replicate n
      ([97, 97, 97, 97, 32, 98, 98, 98, 98, 32] : List Nat)).flatten).length =
      10 * n := by
  induction n with
  | zero => rfl
  | succ n ih =>
    rw [List.replicate_succ, List.flatten_cons, List.length_append, ih]
    rw [show ([97, 97, 97, 97, 32, 98, 98, 98, 98, 32] : List Nat).length = 10
      from rfl]
    omega

theorem c4_flatten_ascii (n : Nat) :
    ∀ b ∈ (List.replicate n
      ([97, 97, 97, 97, 32, 98, 98, 98, 98, 32] : List Nat)).flatten, b < 128 := by
  induction n with
  | zero => intro b hb; simp at hb
  | succ n ih =>
    intro b hb
    rw [List.replicate_succ, List.flatten_cons] at hb
    rcases List.mem_append.mp hb with h | h
    · simp at h
      omega
    · exact ih b h

theorem c4_word_fold (n : Nat) :
    ∀ k m : Nat,
      ((List.replicate n
        ([97, 97, 97, 97, 32, 98, 98, 98, 98, 32] : List Nat)).flatten).foldl
        word_scan_step ([([97, 97, 97, 97], k), ([98, 98, 98, 98], m)], []) =
        ([([97, 97, 97, 97], k + n), ([98, 98, 98, 98], m + n)], []) := by
  induction n with
  | zero => intro k m; simp
  | succ n ih =>
    intro k m
    rw [List.replicate_succ, List.flatten_cons, List.foldl_append]
    rw [show ([97, 97, 97, 97, 32, 98, 98, 98, 98, 32] : List Nat).foldl
        word_scan_step ([([97, 97, 97, 97], k), ([98, 98, 98, 98], m)], []) =
        ([([97, 97, 97, 97], k + 1), ([98, 98, 98, 98], m + 1)], []) from rfl]
    rw [ih (k + 1) (m + 1)]
    rw [show k + 1 + n = k + (n + 1) from by omega,
      show m + 1 + n = m + (n + 1) from by omega]

theorem c4_word_counts :
    word_frequency_almanac ((List.replicate 250
      ([97, 97, 97, 97, 32, 98, 98, 98, 98, 32] : List Nat)).flatten) =
      [([97, 97, 97, 97], 250), ([98, 98, 98, 98], 250)] := by
  rw [word_frequency_almanac]
  rw [show (250 : Nat) = 249 + 1 from rfl]
  rw [List.replicate_succ, List.flatten_cons, List.foldl_append]
  rw [show ([97, 97, 97, 97, 32, 98, 98, 98, 98, 32] : List Nat).foldl
      word_scan_step ([], []) =
      ([([97, 97, 97, 97], 1), ([98, 98, 98, 98], 1)], []) from rfl]
  rw [c4_word_fold 249 1 1]
  rfl

theorem c4_sym_fold1 (n : Nat) :
    ∀ k m j : Nat,
      ((List.replicate n ([256, 32, 257, 32] : List Nat)).flatten).foldl
        bump_count [(256, k), (32, m), (257, j)] =
        [(256, k + n), (32, m + 2 * n), (257, j + n)] := by
  induction n with
  | zero => intro k m j; simp
  | succ n ih =>
    intro k m j
    rw [List.replicate_succ, List.flatten_cons, List.foldl_append]
    rw [show ([256, 32, 257, 32] : List Nat).foldl bump_count
        [(256, k), (32, m), (257, j)] =
        [(256, k + 1), (32, m + 1 + 1), (257, j + 1)] from rfl]
    rw [ih (k + 1) (m + 1 + 1) (j + 1)]
    rw [show k + 1 + n = k + (n + 1) from by omega,
      show m + 1 + 1 + 2 * n = m + 2 * (n + 1) from by omega,
      show j + 1 + n = j + (n + 1) from by omega]

theorem c4_sym_counts1 :
    count_occurrences ((List.replicate 250 ([256, 32, 257, 32] : List Nat)).flatten) =
      [(256, 250), (32, 500), (257, 250)] := by
  rw [count_occurrences]
  rw [show (250 : Nat) = 249 + 1 from rfl]
  rw [List.replicate_succ, List.flatten_cons, List.foldl_append]
  rw [show ([256, 32, 257, 32] : List Nat).foldl bump_count [] =
      [(256, 1), (32, 2), (257, 1)] from rfl]
  rw [c4_sym_fold1 249 1 2 1]

theorem c4_sym_fold2 (n : Nat) :
    ∀ k m j : Nat,
      ((List.replicate n ([257, 32, 256, 32] : List Nat)).flatten).foldl
        bump_count [(257, k), (32, m), (256, j)] =
        [(257, k + n), (32, m + 2 * n), (256, j + n)] := by
  induction n with
  | zero => intro k m j; simp
  | succ n ih =>
    intro k m j
    rw [List.replicate_succ, List.flatten_cons, List.foldl_append]
    rw [show ([257, 32, 256, 32] : List Nat).foldl bump_count
        [(257, k), (32, m), (256, j)] =
        [(257, k + 1), (32, m + 1 + 1), (256, j + 1)] from rfl]
    rw [ih (k + 1) (m + 1 + 1) (j + 1)]
    rw [show k + 1 + n = k + (n + 1) from by omega,
      show m + 1 + 1 + 2 * n = m + 2 * (n + 1) from by omega,
      show j + 1 + n = j + (n + 1) from by omega]

theorem c4_sym_counts2 :
    count_occurrences ((List.replicate 250 ([257, 32, 256, 32] : List Nat)).flatten) =
      [(257, 250), (32, 500), (256, 250)] := by
  rw [count_occurrences]
  rw [show (250 : Nat) = 249 + 1 from rfl]
  rw [List.replicate_succ, List.flatten_cons, List.foldl_append]
  rw [show ([257, 32, 256, 32] : List Nat).foldl bump_count [] =
      [(257, 1), (32, 2), (256, 1)] from rfl]
  rw [c4_sym_fold2 249 1 2 1]

theorem c4_discover1 :
    discover_profitable_word_enchantments
        ((List.replicate 250
          ([97, 97, 97, 97, 32, 98, 98, 98, 98, 32] : List Nat)).flatten)
        [([97, 97, 97, 97], 250), ([98, 98, 98, 98], 250)] =
      [[97, 97, 97, 97], [98, 98, 98, 98]] := by
  rw [discover_profitable_word_enchantments]
  rw [if_neg (by rw [c4_flatten_length]; omega)]
  rw [show profit_candidates [([97, 97, 97, 97], 250), ([98, 98, 98, 98], 250)] =
      [([97, 97, 97, 97], 250, 992), ([98, 98, 98, 98], 250, 992)] from by decide]
  rw [List.mergeSort_of_sorted (by decide)]
  rfl

theorem c4_discover2 :
    discover_profitable_word_enchantments
        ((List.replicate 250
          ([97, 97, 97, 97, 32, 98, 98, 98, 98, 32] : List Nat)).flatten)
        [([98, 98, 98, 98], 250), ([97, 97, 97, 97], 250)] =
      [[98, 98, 98, 98], [97, 97, 97, 97]] := by
  rw [discover_profitable_word_enchantments]
  rw [if_neg (by rw [c4_flatten_length]; omega)]
  rw [show profit_candidates [([98, 98, 98, 98], 250), ([97, 97, 97, 97], 250)] =
      [([98, 98, 98, 98], 250, 992), ([97, 97, 97, 97], 250, 992)] from by decide]
  rw [List.mergeSort_of_sorted (by decide)]
  rfl

theorem c4_transform1 :
    transform_manuscript_to_symbols
        ((List.replicate 250
          ([97, 97, 97, 97, 32, 98, 98, 98, 98, 32] : List Nat)).flatten)
        [[97, 97, 97, 97], [98, 98, 98, 98]] =
      (List.replicate 250 ([256, 32, 257, 32] : List Nat)).flatten := by
  rw [transform_manuscript_to_symbols]
  have h := t_blocks_gen [[97, 97, 97, 97], [98, 98, 98, 98]] 0 1 find_a_d1
    find_b_d1 250
    ((List.replicate 250
      ([97, 97, 97, 97, 32, 98, 98, 98, 98, 32] : List Nat)).flatten).length
    none (by rw [c4_flatten_length]) rfl
  rw [show (256 + 0 : Nat) = 256 from rfl, show (256 + 1 : Nat) = 257 from rfl] at h
  exact h

theorem c4_transform2 :
    transform_manuscript_to_symbols
        ((List.replicate 250
          ([97, 97, 97, 97, 32, 98, 98, 98, 98, 32] : List Nat)).flatten)
        [[98, 98, 98, 98], [97, 97, 97, 97]] =
      (List.replicate 250 ([257, 32, 256, 32] : List Nat)).flatten := by
  rw [transform_manuscript_to_symbols]
  have h := t_blocks_gen [[98, 98, 98, 98], [97, 97, 97, 97]] 1 0 find_a_d2
    find_b_d2 250
    ((List.replicate 250
      ([97, 97, 97, 97, 32, 98, 98, 98, 98, 32] : List Nat)).flatten).length
    none (by rw [c4_flatten_length]) rfl
  rw [show (256 + 0 : Nat) = 256 from rfl, show (256 + 1 : Nat) = 257 from rfl] at h
  exact h

theorem weave_grimoire_eq (x : List Nat) (word_order : List (List Nat × Nat))
    (freq_order : List (Nat × Nat)) :
    (weave_compression_spell x word_order freq_order).mystical_word_grimoire =
      discover_profitable_word_enchantments x word_order := rfl

/-- C4 counterexample: on the 2500-byte input `("aaaa bbbb " * 250)` the two
candidate words tie at savings 992, so Rust's stable `sort_by_key` preserves
the word-frequency map's unspecified iteration order.  Two encode executions
that differ only in that order (both orders certified by the permutation
conjuncts, together with the matching frequency-map orders) produce artifacts
with different dictionary word lists — the artifacts are not byte-identical,
refuting determinism. -/
theorem C4_counterexample :
    [([97, 97, 97, 97], 250), ([98, 98, 98, 98], 250)].Perm
        (word_frequency_almanac (utf8_lossy_scalars
          ((List.replicate 250
            ([97, 97, 97, 97, 32, 98, 98, 98, 98, 32] : List Nat)).flatten).length
          ((List.replicate 250
            ([97, 97, 97, 97, 32, 98, 98, 98, 98, 32] : List Nat)).flatten))) ∧
      [([98, 98, 98, 98], 250), ([97, 97, 97, 97], 250)].Perm
        (word_frequency_almanac (utf8_lossy_scalars
          ((List.replicate 250
            ([97, 97, 97, 97, 32, 98, 98, 98, 98, 32] : List Nat)).flatten).length
          ((List.replicate 250
            ([97, 97, 97, 97, 32, 98, 98, 98, 98, 32] : List Nat)).flatten))) ∧
      [(256, 250), (32, 500), (257, 250)].Perm
        (count_occurrences (transform_manuscript_to_symbols
          ((List.replicate 250
            ([97, 97, 97, 97, 32, 98, 98, 98, 98, 32] : List Nat)).flatten)
          (discover_profitable_word_enchantments
            ((List.replicate 250
              ([97, 97, 97, 97, 32, 98, 98, 98, 98, 32] : List Nat)).flatten)
            [([97, 97, 97, 97], 250), ([98, 98, 98, 98], 250)]))) ∧
      [(257, 250), (32, 500), (256, 250)].Perm
        (count_occurrences (transform_manuscript_to_symbols
          ((List.replicate 250
            ([97, 97, 97, 97, 32, 98, 98, 98, 98, 32] : List Nat)).flatten)
          (discover_profitable_word_enchantments
            ((List.replicate 250
              ([97, 97, 97, 97, 32, 98, 98, 98, 98, 32] : List Nat)).flatten)
            [([98, 98, 98, 98], 250), ([97, 97, 97, 97], 250)]))) ∧
      weave_compression_spell
          ((List.replicate 250
            ([97, 97, 97, 97, 32, 98, 98, 98, 98, 32] : List Nat)).flatten)
          [([97, 97, 97, 97], 250), ([98, 98, 98, 98], 250)]
          [(256, 250), (32, 500), (257, 250)] ≠
        weave_compression_spell
          ((List.replicate 250
            ([97, 97, 97, 97, 32, 98, 98, 98, 98, 32] : List Nat)).flatten)
          [([98, 98, 98, 98], 250), ([97, 97, 97, 97], 250)]
          [(257, 250), (32, 500), (256, 250)] := by
  have hascii : utf8_lossy_scalars
      ((List.replicate 250
        ([97, 97, 97, 97, 32, 98, 98, 98, 98, 32] : List Nat)).flatten).length
      ((List.replicate 250
        ([97, 97, 97, 97, 32, 98, 98, 98, 98, 32] : List Nat)).flatten) =
      (List.replicate 250
        ([97, 97, 97, 97, 32, 98, 98, 98, 98, 32] : List Nat)).flatten :=
    utf8_lossy_scalars_ascii _ _ (Nat.le_refl _) (c4_flatten_ascii 250)
  refine ⟨?_, ?_, ?_, ?_, ?_⟩
  · rw [hascii, c4_word_counts]
  · rw [hascii, c4_word_counts]
    exact List.Perm.swap _ _ _
  · rw [c4_discover1, c4_transform1, c4_sym_counts1]
  · rw [c4_discover2, c4_transform2, c4_sym_counts2]
  · intro h
    have hg := congrArg CompressionArtifact.mystical_word_grimoire h
    rw [weave_grimoire_eq, weave_grimoire_eq, c4_discover1, c4_discover2] at hg
    exact absurd hg (by decide)

/-! ### Concrete round-trip evidence for the decode-encode contract -/

/-- The empty input round-trips: discovery is skipped, no symbol is coded,
the flush still emits the byte `0x80`, and decoding zero symbols returns
empty output. -/
theorem roundtrip_empty :
    unweave_compression_spell (weave_compression_spell [] [] []) = [] := by
  rw [weave_compression_spell]
  rw [show analyze_symbolic_frequencies [] = ⟨[], 0⟩ from by
    rw [analyze_symbolic_frequencies, List.mergeSort_nil]
    rfl]
  rfl

/-- The two-byte input `"AB"` round-trips through the full pipeline
(frequency table `[(65,1,0),(66,1,1)]`, bitstream `[0x60]`). -/
theorem roundtrip_AB :
    unweave_compression_spell
        (weave_compression_spell [65, 66] [] [(65, 1), (66, 1)]) = [65, 66] := by
  rw [weave_compression_spell]
  rw [show analyze_symbolic_frequencies [(65, 1), (66, 1)] =
      ⟨[(65, 1, 0), (66, 1, 1)], 2⟩ from by
    rw [analyze_symbolic_frequencies, List.mergeSort_of_sorted (by decide)]
    rfl]
  rfl
